import Mathlib

/-! Verification of `builder/remotecontext/tarsum.pb.go`

A shallow embedding of the generated protobuf code of `TarsumBackup`
(`Equal`, `Size`, `Marshal`, `MarshalToSizedBuffer`, `encodeVarintTarsum`,
`sovTarsum`, `Unmarshal`, `skipTarsum`) together with theorems about it.

Conventions of the embedding:

* a Go `[]byte` or `string` is a `List Nat`, one element per byte; the theorems
  hold for all such lists, in particular for those of elements below 256;
* a Go `int` is an `Int` kept inside `[-2^63, 2^63)` by `wrapInt`; a Go
  `uint64` is a `Nat` kept below `2^64` by `% 2^64`;
* a Go `map[string]string` is an association list without duplicate keys; a
  `range` over the map is a list of its entries in the order of the iteration;
* a Go function returning `error`, or stopping with a run-time panic, is a
  function into `Except Stop _`.
-/

namespace Tarsum

/-- A Go byte slice or string. -/
abbrev Bytes := List Nat

/-- A Go `map[string]string`, entries in some order, keys without duplicates. -/
abbrev GoMap := List (Bytes × Bytes)

/-- The ways a call can stop without a normal result: the `error` values of the
source, a run-time panic of an index or slice expression, and the exhaustion of
the fuel of a loop of the embedding. -/
inductive Stop where
  | ErrUnexpectedEOF
  | ErrInvalidLengthTarsum
  | ErrIntOverflowTarsum
  | ErrUnexpectedEndOfGroupTarsum
  | wiretypeEndGroup
  | illegalTag (fieldNum : Int) (wire : Nat)
  | wrongWireType (wireType : Int)
  | illegalWireType (wireType : Int)
  | panicIndex
  | outOfFuel
  deriving DecidableEq, Repr

deriving instance DecidableEq for Except

/-- Two's-complement wrap-around of a Go `int` (64 bits). The constant is the
first summand so that the sum, applied to a variable, is not unfolded numeral
by numeral. -/
def wrapInt (x : Int) : Int :=
  (9223372036854775808 + x) % 18446744073709551616 - 9223372036854775808

/-- The conversion `uint64(x)` of a Go `int`. -/
def toUint64 (x : Int) : Nat := (x % 18446744073709551616).toNat

/-- The conversion `int(x)` of a Go `uint64`. -/
def toInt (x : Nat) : Int := wrapInt (x : Int)

/-- The conversion `int32(x)` of a Go `uint64`. -/
def toInt32 (x : Nat) : Int := (2147483648 + (x : Int)) % 4294967296 - 2147483648

/-- Loop of `bitLen`: the number of binary digits of `x`, at most `fuel`. -/
def bitLenAux : Nat → Nat → Nat
  | 0, _ => 0
  | fuel + 1, x => if x = 0 then 0 else bitLenAux fuel (x / 2) + 1

/-- The library function `math/bits.Len64`: the minimum number of bits needed to
represent the 64-bit value `x`, and 0 for `x = 0`. -/
def Len64 (x : Nat) : Nat := bitLenAux 64 x

/-- `sovTarsum`: the number of bytes of the varint of `x`. -/
def sovTarsum (x : Nat) : Nat := (Len64 (x ||| 1) + 6) / 7

/-- The index expression `dAtA[i]` read. -/
def getIdx (dAtA : Bytes) (i : Int) : Except Stop Nat :=
  if 0 ≤ i ∧ i < dAtA.length then .ok (dAtA.getD i.toNat 0) else .error .panicIndex

/-- The assignment `dAtA[i] = x`. -/
def setIdx (dAtA : Bytes) (i : Int) (x : Nat) : Except Stop Bytes :=
  if 0 ≤ i ∧ i < dAtA.length then .ok (dAtA.set i.toNat x) else .error .panicIndex

/-- The slice expression `dAtA[lo:hi]`. -/
def slice (dAtA : Bytes) (lo hi : Int) : Except Stop Bytes :=
  if 0 ≤ lo ∧ lo ≤ hi ∧ hi ≤ dAtA.length then .ok ((dAtA.take hi.toNat).drop lo.toNat)
  else .error .panicIndex

/-- The statement `copy(dAtA[i:], src)`: the result is the whole of `dAtA` after
the copy of `min(len(dAtA) - i, len(src))` bytes. -/
def copyTo (dAtA : Bytes) (i : Int) (src : Bytes) : Except Stop Bytes :=
  if 0 ≤ i ∧ i ≤ dAtA.length then
    .ok (dAtA.take i.toNat ++ src.take (dAtA.length - i.toNat)
      ++ dAtA.drop (i.toNat + min src.length (dAtA.length - i.toNat)))
  else .error .panicIndex

/-- The expression `make([]byte, size)`. -/
def makeBytes (size : Int) : Except Stop Bytes :=
  if 0 ≤ size then .ok (List.replicate size.toNat 0) else .error .panicIndex

/-- The loop of `encodeVarintTarsum`, the final store included. A `uint64`
leaves the loop after at most nine rounds, so the fuel 10 is never used up. -/
def encodeVarintLoop : Nat → Bytes → Int → Nat → Except Stop Bytes
  | 0, _, _, _ => .error .outOfFuel
  | fuel + 1, dAtA, offset, v =>
    if v ≥ 128 then
      match setIdx dAtA offset (((v &&& 0x7f) ||| 0x80) % 256) with
      | .error e => .error e
      | .ok dAtA => encodeVarintLoop fuel dAtA (wrapInt (offset + 1)) (v >>> 7)
    else setIdx dAtA offset (v % 256)

/-- `encodeVarintTarsum(dAtA, offset, v)`: the buffer after the call and the
returned `base`. -/
def encodeVarintTarsum (dAtA : Bytes) (offset : Int) (v : Nat) : Except Stop (Bytes × Int) :=
  let offset := wrapInt (offset - sovTarsum v)
  let base := offset
  match encodeVarintLoop 10 dAtA offset v with
  | .error e => .error e
  | .ok dAtA => .ok (dAtA, base)

/-- The `mapEntrySize` of `Size` for one entry. -/
def mapEntrySize (k v : Bytes) : Int :=
  wrapInt (1 + k.length + sovTarsum (toUint64 k.length) + 1 + v.length
    + sovTarsum (toUint64 v.length))

/-- The loop `for k, v := range m.Hashes` of `Size`, over a range of the map. -/
def sizeLoop : GoMap → Int → Int
  | [], n => n
  | (k, v) :: rest, n =>
    sizeLoop rest
      (wrapInt (n + (mapEntrySize k v + 1 + sovTarsum (toUint64 (mapEntrySize k v)))))

/-- `Size` of a non-nil message whose `Hashes` map is ranged over in the order
`range`. -/
def Size (range : GoMap) : Int :=
  if range.length > 0 then sizeLoop range 0 else 0

/-- One round of the loop of `MarshalToSizedBuffer` for the key `k` and its
value `v := m.Hashes[k]`. -/
def marshalEntry (dAtA : Bytes) (i : Int) (k v : Bytes) : Except Stop (Bytes × Int) := do
  let baseI := i
  let i := wrapInt (i - v.length)
  let dAtA ← copyTo dAtA i v
  let (dAtA, i) ← encodeVarintTarsum dAtA i (toUint64 v.length)
  let i := wrapInt (i - 1)
  let dAtA ← setIdx dAtA i 0x12
  let i := wrapInt (i - k.length)
  let dAtA ← copyTo dAtA i k
  let (dAtA, i) ← encodeVarintTarsum dAtA i (toUint64 k.length)
  let i := wrapInt (i - 1)
  let dAtA ← setIdx dAtA i 0xa
  let (dAtA, i) ← encodeVarintTarsum dAtA i (toUint64 (wrapInt (baseI - i)))
  let i := wrapInt (i - 1)
  let dAtA ← setIdx dAtA i 0xa
  pure (dAtA, i)

/-- The loop `for k := range m.Hashes` of `MarshalToSizedBuffer`. -/
def marshalLoop : GoMap → Bytes → Int → Except Stop (Bytes × Int)
  | [], dAtA, i => .ok (dAtA, i)
  | (k, v) :: rest, dAtA, i =>
    match marshalEntry dAtA i k v with
    | .error e => .error e
    | .ok (dAtA, i) => marshalLoop rest dAtA i

/-- `MarshalToSizedBuffer(dAtA)` for a message whose `Hashes` map is ranged over
in the order `range`: the buffer after the call and the returned count. -/
def MarshalToSizedBuffer (range : GoMap) (dAtA : Bytes) : Except Stop (Bytes × Int) :=
  let i : Int := dAtA.length
  if range.length > 0 then
    match marshalLoop range dAtA i with
    | .error e => .error e
    | .ok (d, i) => .ok (d, wrapInt (dAtA.length - i))
  else .ok (dAtA, wrapInt (dAtA.length - i))

/-- `Marshal`: `sizeRange` is the order in which `Size` ranges over the map and
`range` the order in which `MarshalToSizedBuffer` does. -/
def Marshal (sizeRange range : GoMap) : Except Stop Bytes := do
  let size := Size sizeRange
  let dAtA ← makeBytes size
  let buf ← slice dAtA 0 size
  let (dAtA, n) ← MarshalToSizedBuffer range buf
  slice dAtA 0 n

/-- The message type: `Hashes` is `none` for a nil map. -/
structure TarsumBackup where
  Hashes : Option GoMap
  deriving DecidableEq, Repr

/-- The entries of a map value, none for a nil map. -/
def entries (h : Option GoMap) : GoMap := h.getD []

/-- The map read `h[k]`: the value stored under `k`, the empty string when the
key is absent or the map is nil. -/
def mapGet (h : Option GoMap) (k : Bytes) : Bytes := ((entries h).lookup k).getD []

/-- The map assignment `h[k] = v` on a non-nil map. -/
def mapSet (h : GoMap) (k v : Bytes) : GoMap :=
  if h.any (fun e => e.1 = k) then h.map (fun e => if e.1 = k then (k, v) else e)
  else h ++ [(k, v)]

/-- The loop `for i := range this.Hashes` of `Equal` over the keys `range`. -/
def equalLoop (this that1 : Option GoMap) : List Bytes → Bool
  | [] => true
  | i :: rest => if mapGet this i ≠ mapGet that1 i then false else equalLoop this that1 rest

/-- The dynamic value of the `interface{}` argument of `Equal`. -/
inductive That where
  | nilInterface
  | pointer (p : Option TarsumBackup)
  | value (v : TarsumBackup)
  | other
  deriving DecidableEq, Repr

/-- `Equal`: `this` is `none` for a nil receiver. -/
def Equal (this : Option TarsumBackup) (that : That) : Bool :=
  match that with
  | .nilInterface => this.isNone
  | .other => false
  | .pointer none => this.isNone
  | .pointer (some that1) | .value that1 =>
    match this with
    | none => false
    | some this =>
      if (entries this.Hashes).length ≠ (entries that1.Hashes).length then false
      else equalLoop this.Hashes that1.Hashes ((entries this.Hashes).map Prod.fst)

/-- The varint loop `for shift := uint(0); ; shift += 7` that `Unmarshal` and
`skipTarsum` repeat for each varint they decode: the decoded `uint64` and the
index behind the varint. Where the source accumulates into an `int` (`msglen`,
`length`), the 64 bits are the same and the caller reads them with `toInt`. The
eleventh round stops at `shift >= 64`, so the fuel 11 is never used up. -/
def readVarint (dAtA : Bytes) : Nat → Nat → Nat → Int → Except Stop (Nat × Int)
  | 0, _, _, _ => .error .outOfFuel
  | fuel + 1, shift, acc, iNdEx =>
    if shift ≥ 64 then .error .ErrIntOverflowTarsum
    else if iNdEx ≥ dAtA.length then .error .ErrUnexpectedEOF
    else
      match getIdx dAtA iNdEx with
      | .error e => .error e
      | .ok b =>
        let iNdEx := wrapInt (iNdEx + 1)
        let acc := acc ||| (((b &&& 0x7F) <<< shift) % 18446744073709551616)
        if b < 0x80 then .ok (acc, iNdEx) else readVarint dAtA fuel (shift + 7) acc iNdEx

/-- The loop of `skipTarsum` for wire type 0, which steps over a varint. -/
def skipVarint (dAtA : Bytes) : Nat → Nat → Int → Except Stop Int
  | 0, _, _ => .error .outOfFuel
  | fuel + 1, shift, iNdEx =>
    if shift ≥ 64 then .error .ErrIntOverflowTarsum
    else if iNdEx ≥ dAtA.length then .error .ErrUnexpectedEOF
    else
      let iNdEx := wrapInt (iNdEx + 1)
      match getIdx dAtA (wrapInt (iNdEx - 1)) with
      | .error e => .error e
      | .ok b => if b < 0x80 then .ok iNdEx else skipVarint dAtA fuel (shift + 7) iNdEx

/-- The `switch wireType` of `skipTarsum`: the new `iNdEx` and `depth`. -/
def skipSwitch (dAtA : Bytes) (wireType iNdEx depth : Int) : Except Stop (Int × Int) :=
  if wireType = 0 then
    match skipVarint dAtA 11 0 iNdEx with
    | .error e => .error e
    | .ok iNdEx => .ok (iNdEx, depth)
  else if wireType = 1 then .ok (wrapInt (iNdEx + 8), depth)
  else if wireType = 2 then
    match readVarint dAtA 11 0 0 iNdEx with
    | .error e => .error e
    | .ok (length, iNdEx) =>
      if toInt length < 0 then .error .ErrInvalidLengthTarsum
      else .ok (wrapInt (iNdEx + toInt length), depth)
  else if wireType = 3 then .ok (iNdEx, wrapInt (depth + 1))
  else if wireType = 4 then
    if depth = 0 then .error .ErrUnexpectedEndOfGroupTarsum
    else .ok (iNdEx, wrapInt (depth - 1))
  else if wireType = 5 then .ok (wrapInt (iNdEx + 4), depth)
  else .error (.illegalWireType wireType)

/-- The loop `for iNdEx < l` of `skipTarsum`. Every round reads at least one
byte, so `len(dAtA) + 1` rounds of fuel are never used up. -/
def skipLoop (dAtA : Bytes) : Nat → Int → Int → Except Stop Int
  | 0, _, _ => .error .outOfFuel
  | fuel + 1, iNdEx, depth =>
    if iNdEx < dAtA.length then
      match readVarint dAtA 11 0 0 iNdEx with
      | .error e => .error e
      | .ok (wire, iNdEx) =>
        let wireType := toInt (wire &&& 0x7)
        match skipSwitch dAtA wireType iNdEx depth with
        | .error e => .error e
        | .ok (iNdEx, depth) =>
          if iNdEx < 0 then .error .ErrInvalidLengthTarsum
          else if depth = 0 then .ok iNdEx
          else skipLoop dAtA fuel iNdEx depth
    else .error .ErrUnexpectedEOF

/-- `skipTarsum(dAtA)`. -/
def skipTarsum (dAtA : Bytes) : Except Stop Int :=
  skipLoop dAtA (dAtA.length + 1) 0 0

/-- The length-delimited string read of a map key or value in `Unmarshal`: the
string and the index behind it. -/
def readString (dAtA : Bytes) (iNdEx : Int) : Except Stop (Bytes × Int) :=
  match readVarint dAtA 11 0 0 iNdEx with
  | .error e => .error e
  | .ok (stringLen, iNdEx) =>
    let intStringLen := toInt stringLen
    if intStringLen < 0 then .error .ErrInvalidLengthTarsum
    else
      let postStringIndex := wrapInt (iNdEx + intStringLen)
      if postStringIndex < 0 then .error .ErrInvalidLengthTarsum
      else if postStringIndex > dAtA.length then .error .ErrUnexpectedEOF
      else
        match slice dAtA iNdEx postStringIndex with
        | .error e => .error e
        | .ok str => .ok (str, postStringIndex)

/-- The call of `skipTarsum` on `dAtA[iNdEx:]` with the checks that follow it in
`Unmarshal`, `limit` being `postIndex` or `l`: the index behind the field. -/
def skipField (dAtA : Bytes) (iNdEx limit : Int) : Except Stop Int :=
  match slice dAtA iNdEx dAtA.length with
  | .error e => .error e
  | .ok rest =>
    match skipTarsum rest with
    | .error e => .error e
    | .ok skippy =>
      if skippy < 0 ∨ wrapInt (iNdEx + skippy) < 0 then .error .ErrInvalidLengthTarsum
      else if wrapInt (iNdEx + skippy) > limit then .error .ErrUnexpectedEOF
      else .ok (wrapInt (iNdEx + skippy))

/-- The loop `for iNdEx < postIndex` of `Unmarshal` over the fields of one map
entry: the final `mapkey` and `mapvalue`. Every round reads at least one byte,
so `len(dAtA) + 1` rounds of fuel are never used up. -/
def entryLoop (dAtA : Bytes) (postIndex : Int) :
    Nat → Bytes → Bytes → Int → Except Stop (Bytes × Bytes)
  | 0, _, _, _ => .error .outOfFuel
  | fuel + 1, mapkey, mapvalue, iNdEx =>
    if iNdEx < postIndex then
      let entryPreIndex := iNdEx
      match readVarint dAtA 11 0 0 iNdEx with
      | .error e => .error e
      | .ok (wire, iNdEx) =>
        let fieldNum := toInt32 (wire >>> 3)
        if fieldNum = 1 then
          match readString dAtA iNdEx with
          | .error e => .error e
          | .ok (mapkey, iNdEx) => entryLoop dAtA postIndex fuel mapkey mapvalue iNdEx
        else if fieldNum = 2 then
          match readString dAtA iNdEx with
          | .error e => .error e
          | .ok (mapvalue, iNdEx) => entryLoop dAtA postIndex fuel mapkey mapvalue iNdEx
        else
          match skipField dAtA entryPreIndex postIndex with
          | .error e => .error e
          | .ok iNdEx => entryLoop dAtA postIndex fuel mapkey mapvalue iNdEx
    else .ok (mapkey, mapvalue)

/-- The body of `case 1:` of `Unmarshal`: the map after it, and the new index
or the error returned. -/
def unmarshalHashes (dAtA : Bytes) (Hashes : Option GoMap) (wireType iNdEx : Int) :
    Option GoMap × Except Stop Int :=
  if wireType ≠ 2 then (Hashes, .error (.wrongWireType wireType))
  else
    match readVarint dAtA 11 0 0 iNdEx with
    | .error e => (Hashes, .error e)
    | .ok (msglen, iNdEx) =>
      let msglen := toInt msglen
      if msglen < 0 then (Hashes, .error .ErrInvalidLengthTarsum)
      else
        let postIndex := wrapInt (iNdEx + msglen)
        if postIndex < 0 then (Hashes, .error .ErrInvalidLengthTarsum)
        else if postIndex > dAtA.length then (Hashes, .error .ErrUnexpectedEOF)
        else
          let Hashes := if Hashes = none then some [] else Hashes
          match entryLoop dAtA postIndex (dAtA.length + 1) [] [] iNdEx with
          | .error e => (Hashes, .error e)
          | .ok (mapkey, mapvalue) => (some (mapSet (entries Hashes) mapkey mapvalue), .ok postIndex)

/-- One round of the loop `for iNdEx < l` of `Unmarshal`. -/
def unmarshalField (dAtA : Bytes) (Hashes : Option GoMap) (iNdEx : Int) :
    Option GoMap × Except Stop Int :=
  let preIndex := iNdEx
  match readVarint dAtA 11 0 0 iNdEx with
  | .error e => (Hashes, .error e)
  | .ok (wire, iNdEx) =>
    let fieldNum := toInt32 (wire >>> 3)
    let wireType := toInt (wire &&& 0x7)
    if wireType = 4 then (Hashes, .error .wiretypeEndGroup)
    else if fieldNum ≤ 0 then (Hashes, .error (.illegalTag fieldNum wire))
    else if fieldNum = 1 then unmarshalHashes dAtA Hashes wireType iNdEx
    else (Hashes, skipField dAtA preIndex dAtA.length)

/-- The loop `for iNdEx < l` of `Unmarshal` with the check behind it. Every
round reads at least one byte, so `len(dAtA) + 1` rounds of fuel are never used
up. -/
def unmarshalLoop (dAtA : Bytes) : Nat → Option GoMap → Int → Option GoMap × Except Stop Unit
  | 0, Hashes, _ => (Hashes, .error .outOfFuel)
  | fuel + 1, Hashes, iNdEx =>
    if iNdEx < dAtA.length then
      match unmarshalField dAtA Hashes iNdEx with
      | (Hashes, .error e) => (Hashes, .error e)
      | (Hashes, .ok iNdEx) => unmarshalLoop dAtA fuel Hashes iNdEx
    else if iNdEx > dAtA.length then (Hashes, .error .ErrUnexpectedEOF)
    else (Hashes, .ok ())

/-- `Unmarshal(dAtA)` on the receiver `m`: the receiver after the call and the
returned error, `.ok ()` standing for `nil`. -/
def Unmarshal (m : TarsumBackup) (dAtA : Bytes) : TarsumBackup × Except Stop Unit :=
  let r := unmarshalLoop dAtA (dAtA.length + 1) m.Hashes 0
  (⟨r.1⟩, r.2)

/-! ## The wire format, stated independently of the buffer code -/

/-- Loop of `uvarint`. -/
def uvarintAux : Nat → Nat → Bytes
  | 0, _ => []
  | fuel + 1, v => if v < 128 then [v] else (v % 128 + 128) :: uvarintAux fuel (v / 128)

/-- The base-128 varint of a `uint64`: seven bits per byte, least significant
group first, the top bit of a byte set when another byte follows. -/
def uvarint (v : Nat) : Bytes := uvarintAux 10 v

/-- The length `n` of the body of the map entry of `k` and `v`. -/
def entryLen (k v : Bytes) : Nat :=
  2 + k.length + v.length + (uvarint k.length).length + (uvarint v.length).length

/-- The body of a map entry: the key as field 1 and the value as field 2. -/
def entryBody (k v : Bytes) : Bytes :=
  [0x0A] ++ uvarint k.length ++ k ++ ([0x12] ++ uvarint v.length ++ v)

/-- The encoding of one entry of `Hashes`: field 1, length-delimited. -/
def wireEntry (k v : Bytes) : Bytes :=
  [0x0A] ++ uvarint (entryLen k v) ++ entryBody k v

/-- The concatenation of the encodings of the entries, in the order of the list. -/
def wire : GoMap → Bytes
  | [] => []
  | (k, v) :: rest => wireEntry k v ++ wire rest

/-- The map after the assignments `h[k] = v` for the entries of the list, in
the order of the list (`none` is the nil map, left nil when there is no entry). -/
def insertAll : Option GoMap → GoMap → Option GoMap
  | H, [] => H
  | H, (k, v) :: rest => insertAll (some (mapSet (entries H) k v)) rest

/-- The 64-bit value of a varint whose first byte is shifted by `shift`: the low
seven bits of each byte, each group shifted seven bits further than the one
before and cut to 64 bits, joined by bitwise or. -/
def varintValue : Nat → Bytes → Nat
  | _, [] => 0
  | shift, b :: rest =>
    (((b &&& 0x7F) <<< shift) % 18446744073709551616) ||| varintValue (shift + 7) rest

end Tarsum

/-! # The attach stream: frame codec and stream mode

The frame codec and the attach handler are exercised by
`integration/container/attach_test.go` but are not among the source files; they
are modelled from the specification.
-/

namespace Attach

/-- A byte sequence. -/
abbrev Bytes := List Nat

/-- Modelled from the spec: `StreamKind` of section 3, the tag of a frame. The
frame codec (`pkg/stdcopy`) is not among the source files. -/
inductive StreamKind where
  | stdin
  | stdout
  | stderr
  deriving DecidableEq, Repr

/-- Modelled from the spec: the kind byte of section 6 (0 = stdin, 1 = stdout,
2 = stderr). -/
def StreamKind.toByte : StreamKind → Nat
  | .stdin => 0
  | .stdout => 1
  | .stderr => 2

/-- Modelled from the spec: the kind of a kind byte, all other values being
invalid (section 6). -/
def kindOfByte (b : Nat) : Option StreamKind :=
  if b = 0 then some .stdin else if b = 1 then some .stdout else if b = 2 then some .stderr
  else none

/-- Modelled from the spec: the 4-byte big-endian unsigned payload length of the
frame header (section 6). -/
def putUint32 (n : Nat) : Bytes :=
  [n / 16777216 % 256, n / 65536 % 256, n / 256 % 256, n % 256]

/-- Modelled from the spec: the value of a 4-byte big-endian field. -/
def getUint32 (b0 b1 b2 b3 : Nat) : Nat :=
  b0 * 16777216 + b1 * 65536 + b2 * 256 + b3

/-- Modelled from the spec: `encodeFrame(kind, payload)` of section 4.1, the
8-byte header (kind byte, three reserved zero bytes, big-endian payload length)
followed by the payload. -/
def encodeFrame (kind : StreamKind) (payload : Bytes) : Bytes :=
  [kind.toByte, 0, 0, 0] ++ putUint32 payload.length ++ payload

/-- Modelled from the spec: the errors of the decoder (section 7), and the
exhaustion of the fuel of the loop of the embedding. -/
inductive DecodeError where
  | ProtocolError
  | UnexpectedEOF
  | outOfFuel
  deriving DecidableEq, Repr

/-- Modelled from the spec: the sinks registered for the three stream kinds
(`sinkByKind` of section 4.1), each holding the bytes delivered to it so far. -/
structure Sinks where
  stdin : Bytes
  stdout : Bytes
  stderr : Bytes
  deriving DecidableEq, Repr

/-- Modelled from the spec: the dispatch of a payload to the sink registered for
its kind (section 4.1). -/
def Sinks.deliver (s : Sinks) (kind : StreamKind) (payload : Bytes) : Sinks :=
  match kind with
  | .stdin => { s with stdin := s.stdin ++ payload }
  | .stdout => { s with stdout := s.stdout ++ payload }
  | .stderr => { s with stderr := s.stderr ++ payload }

/-- Modelled from the spec: the loop of `decodeStream` of section 4.1. It
consumes frames until the source is exhausted and dispatches each payload to
the sink of its kind; an invalid kind byte is a `ProtocolError` with no payload
delivered, a source that ends inside a header or before the declared payload
length is an `UnexpectedEOF`, and the end of the source at a frame boundary is
not an error. The result is the sinks and the number of payload bytes
processed. Every round consumes at least the eight bytes of a header. -/
def decodeLoop : Nat → Bytes → Sinks → Nat → Sinks × Except DecodeError Nat
  | 0, _, sinks, _ => (sinks, .error .outOfFuel)
  | _ + 1, [], sinks, n => (sinks, .ok n)
  | fuel + 1, k :: _ :: _ :: _ :: b0 :: b1 :: b2 :: b3 :: rest, sinks, n =>
    match kindOfByte k with
    | none => (sinks, .error .ProtocolError)
    | some kind =>
      let len := getUint32 b0 b1 b2 b3
      if rest.length < len then (sinks, .error .UnexpectedEOF)
      else decodeLoop fuel (rest.drop len) (sinks.deliver kind (rest.take len)) (n + len)
  | _ + 1, _, sinks, _ => (sinks, .error .UnexpectedEOF)

/-- Modelled from the spec: `decodeStream(source, sinkByKind)` of section 4.1,
started on empty sinks. -/
def decodeStream (source : Bytes) : Sinks × Except DecodeError Nat :=
  decodeLoop (source.length + 1) source ⟨[], [], []⟩ 0

/-- Modelled from the spec: the TTY-mode flag of a container, fixed at its
creation (section 3); the attach tests set it as `Config.Tty`. -/
structure Config where
  Tty : Bool
  deriving DecidableEq, Repr

/-- Modelled from the spec: the attach request parameters (section 6), which
streams to attach and whether the connection stays open for streaming. -/
structure ContainerAttachOptions where
  Stdin : Bool
  Stdout : Bool
  Stderr : Bool
  Stream : Bool
  deriving DecidableEq, Repr

/-- Modelled from the spec: the two stream modes of section 6, under the names
of the media types the attach tests compare with. -/
inductive MediaType where
  | MediaTypeRawStream
  | MediaTypeMultiplexedStream
  deriving DecidableEq, Repr

/-- Modelled from the spec: the media type reported by the response to an attach
request. The attach handler and the client are not among the source files; by
section 6 the mode is the `isTTY` flag fixed at the creation of the container,
raw passthrough bytes under a TTY and framed (multiplexed) bytes otherwise, and
it is surfaced to the client with the response. -/
def ContainerAttachMediaType (config : Config) (_options : ContainerAttachOptions) :
    Option MediaType :=
  some (if config.Tty then .MediaTypeRawStream else .MediaTypeMultiplexedStream)

/-- The checks of `testAttach(t, tty, expected)` on the attach response: a media
type is reported (`ok`) and it is the expected one. -/
def testAttach (tty : Bool) (expected : MediaType) : Bool :=
  match ContainerAttachMediaType ⟨tty⟩ ⟨false, true, true, false⟩ with
  | some mediaType => mediaType == expected
  | none => false

end Attach

/-! # Theorems about `tarsum.pb.go` -/

namespace Tarsum

/-- An outcome that is a Go `error` value: neither a run-time panic of an index
or slice expression nor the exhaustion of the fuel of a loop. -/
def Good (e : Stop) : Prop := e ≠ .panicIndex ∧ e ≠ .outOfFuel

/-! ## Machine integers -/

theorem wrapInt_eq {x : Int} (h1 : -9223372036854775808 ≤ x) (h2 : x < 9223372036854775808) :
    wrapInt x = x := by
  unfold wrapInt; omega

theorem toUint64_natCast {n : Nat} (h : n < 18446744073709551616) : toUint64 (n : Int) = n := by
  unfold toUint64; omega

theorem toInt_eq {n : Nat} (h : n < 9223372036854775808) : toInt n = n := by
  unfold toInt wrapInt; omega

theorem toInt_neg {n : Nat} (h1 : 9223372036854775808 ≤ n) (h2 : n < 18446744073709551616) :
    toInt n < 0 := by
  unfold toInt wrapInt; omega

/-! ## `sovTarsum` -/

theorem bitLenAux_le_iff (f : Nat) : ∀ (x n : Nat), x < 2 ^ f → (bitLenAux f x ≤ n ↔ x < 2 ^ n) := by
  induction f with
  | zero =>
    intro x n h
    have hx : x = 0 := by simpa using h
    subst hx
    simp [bitLenAux]
  | succ f ih =>
    intro x n h
    unfold bitLenAux
    by_cases hx : x = 0
    · subst hx; simp
    · rw [if_neg hx]
      cases n with
      | zero => simp; omega
      | succ m =>
        have h2 : x / 2 < 2 ^ f := by
          rw [pow_succ] at h; omega
        rw [Nat.add_le_add_iff_right, ih (x / 2) m h2, pow_succ]
        omega

theorem lt_of_or_lt {x y j : Nat} (h : (x ||| y) < 2 ^ j) : x < 2 ^ j := by
  apply Nat.lt_pow_two_of_testBit
  intro i hi
  have h2 : (x ||| y) < 2 ^ i := lt_of_lt_of_le h (Nat.pow_le_pow_right (by decide) hi)
  have h3 := Nat.testBit_lt_two_pow h2
  rw [Nat.testBit_or] at h3
  cases hx : x.testBit i with
  | false => rfl
  | true => rw [hx] at h3; simp at h3

theorem or_one_lt_iff (v j : Nat) (hj : 0 < j) : (v ||| 1) < 2 ^ j ↔ v < 2 ^ j := by
  constructor
  · intro h
    exact lt_of_or_lt h
  · intro h
    exact Nat.or_lt_two_pow h (Nat.one_lt_two_pow (by omega))

theorem sovTarsum_le_iff (v j : Nat) (hv : v < 2 ^ 64) (hj : 0 < j) :
    sovTarsum v ≤ j ↔ v < 2 ^ (7 * j) := by
  unfold sovTarsum Len64
  have h1 : (v ||| 1) < 2 ^ 64 := (or_one_lt_iff v 64 (by decide)).2 hv
  rw [← or_one_lt_iff v (7 * j) (by omega), ← bitLenAux_le_iff 64 _ _ h1]
  omega

theorem sovTarsum_pos (v : Nat) : 0 < sovTarsum v := by
  unfold sovTarsum Len64
  have h : (v ||| 1) ≠ 0 := by
    intro h0
    have h1 : (v ||| 1).testBit 0 = true := by simp
    rw [h0] at h1
    simp at h1
  have : 0 < bitLenAux 64 (v ||| 1) := by
    rw [show (64 : Nat) = 63 + 1 from rfl, bitLenAux, if_neg h]
    omega
  omega

theorem pow7_succ (f : Nat) : (2 : Nat) ^ (7 * (f + 1)) = 2 ^ (7 * f) * 128 := by
  rw [show 7 * (f + 1) = 7 * f + 7 by ring, pow_add]
  norm_num

theorem div128_lt {v f : Nat} (hv : v < 2 ^ (7 * (f + 1))) : v / 128 < 2 ^ (7 * f) := by
  rw [pow7_succ] at hv
  exact (Nat.div_lt_iff_lt_mul (by decide)).2 hv

theorem fuel_pos {v f : Nat} (hv : v < 2 ^ (7 * (f + 1))) (h : 128 ≤ v) : 0 < f := by
  have h2 := div128_lt hv
  rcases Nat.eq_zero_or_pos f with h0 | h0
  · subst h0; simp at h2; omega
  · exact h0

theorem sovTarsum_small {v : Nat} (h : v < 128) : sovTarsum v = 1 := by
  have h1 := (sovTarsum_le_iff v 1 (lt_trans h (by decide)) (by decide)).2 (by simpa using h)
  have h2 := sovTarsum_pos v
  omega

theorem sovTarsum_step {v : Nat} (h : 128 ≤ v) (hv : v < 2 ^ 64) :
    sovTarsum v = sovTarsum (v / 128) + 1 := by
  have hv2 : v / 128 < 2 ^ 64 := lt_of_le_of_lt (Nat.div_le_self _ _) hv
  have ha := (sovTarsum_le_iff v (sovTarsum v) hv (sovTarsum_pos v)).1 le_rfl
  have hb := (sovTarsum_le_iff (v / 128) (sovTarsum (v / 128)) hv2 (sovTarsum_pos _)).1 le_rfl
  have h1 : sovTarsum v ≠ 1 := by
    intro h1
    rw [h1] at ha
    simp at ha
    omega
  have hpos := sovTarsum_pos v
  obtain ⟨a, ha'⟩ : ∃ a, sovTarsum v = a + 2 := ⟨sovTarsum v - 2, by omega⟩
  rw [ha'] at ha
  have h2 : sovTarsum (v / 128) ≤ a + 1 := by
    apply (sovTarsum_le_iff (v / 128) (a + 1) hv2 (by omega)).2
    exact div128_lt ha
  have h3 : sovTarsum v ≤ sovTarsum (v / 128) + 1 := by
    apply (sovTarsum_le_iff v _ hv (by omega)).2
    rw [pow7_succ]
    exact (Nat.div_lt_iff_lt_mul (by decide)).1 hb
  omega

theorem uvarintAux_length (f : Nat) : ∀ v : Nat, v < 2 ^ (7 * f) → v < 2 ^ 64 → 0 < f →
    (uvarintAux f v).length = sovTarsum v := by
  induction f with
  | zero => intro v _ _ h; omega
  | succ f ih =>
    intro v hv hv64 _
    unfold uvarintAux
    by_cases h : v < 128
    · rw [if_pos h, sovTarsum_small h]; rfl
    · rw [if_neg h, sovTarsum_step (by omega) hv64, List.length_cons]
      have h2 : v / 128 < 2 ^ (7 * f) := div128_lt hv
      have hf : 0 < f := fuel_pos hv (by omega)
      rw [ih (v / 128) h2 (lt_of_le_of_lt (Nat.div_le_self _ _) hv64) hf]

theorem uvarint_length {v : Nat} (hv : v < 2 ^ 64) : (uvarint v).length = sovTarsum v :=
  uvarintAux_length 10 v (lt_trans hv (by decide)) hv (by decide)

theorem contByte_eq (v : Nat) : ((v &&& 0x7f) ||| 0x80) % 256 = v % 128 + 128 := by
  have h1 : v &&& 0x7f = v % 128 := Nat.and_pow_two_sub_one_eq_mod v 7
  have h2 : ∀ r : Fin 128, (r.val ||| 0x80) % 256 = r.val + 128 := by decide
  rw [h1]
  exact h2 ⟨v % 128, Nat.mod_lt _ (by decide)⟩

/-! ## Writes into the buffer -/

theorem setIdx_mid {d a s : Bytes} {y b : Nat} {i : Int} (hd : d = a ++ y :: s)
    (hi : i = (a.length : Int)) : setIdx d i b = .ok (a ++ b :: s) := by
  subst hd hi
  unfold setIdx
  rw [if_pos (by simp)]
  simp

theorem copyTo_mid {d a x s w : Bytes} {i : Int} (hd : d = a ++ x ++ s)
    (hi : i = (a.length : Int)) (hx : x.length = w.length) :
    copyTo d i w = .ok (a ++ w ++ s) := by
  subst hd hi
  unfold copyTo
  rw [if_pos (by simp; omega)]
  simp only [Int.toNat_ofNat, List.length_append]
  have e1 : a.length + x.length + s.length - a.length = x.length + s.length := by omega
  rw [e1, hx, List.take_of_length_le (by omega : w.length ≤ w.length + s.length),
    Nat.min_eq_left (by omega : w.length ≤ w.length + s.length)]
  simp [List.take_append_eq_append_take, List.drop_append_eq_append_drop, hx]

theorem encodeVarintLoop_mid (f : Nat) : ∀ (v : Nat) (d a x s : Bytes) (i : Int),
    v < 2 ^ (7 * f) → d = a ++ x ++ s → i = (a.length : Int) →
    x.length = (uvarintAux f v).length → d.length < 2 ^ 63 → 0 < f →
    encodeVarintLoop f d i v = .ok (a ++ uvarintAux f v ++ s) := by
  induction f with
  | zero => intro v d a x s i _ _ _ _ _ h; omega
  | succ f ih =>
    intro v d a x s i hv hd hi hx hlen _
    unfold encodeVarintLoop uvarintAux
    unfold uvarintAux at hx
    by_cases h : v < 128
    · rw [if_neg (by omega), if_pos h]
      rw [if_pos h] at hx
      obtain ⟨y, rfl⟩ : ∃ y, x = [y] := List.length_eq_one.1 hx
      rw [Nat.mod_eq_of_lt (by omega)]
      rw [setIdx_mid (a := a) (y := y) (s := s) (by simpa using hd) hi]
      simp
    · rw [if_pos (by omega), if_neg h]
      rw [if_neg h] at hx
      cases x with
      | nil => simp at hx
      | cons y x =>
        rw [contByte_eq, setIdx_mid (a := a) (y := y) (s := x ++ s) (by simpa using hd) hi]
        simp only
        have h2 : v / 128 < 2 ^ (7 * f) := div128_lt hv
        have hf : 0 < f := fuel_pos hv (by omega)
        have hl : (a ++ (v % 128 + 128) :: (x ++ s)).length = d.length := by
          subst hd; simp
        rw [show v >>> 7 = v / 128 from Nat.shiftRight_eq_div_pow v 7]
        rw [ih (v / 128) (a ++ (v % 128 + 128) :: (x ++ s)) (a ++ [v % 128 + 128]) x s
          (wrapInt (i + 1)) h2 (by simp) (by
            subst hi hd
            simp at hlen
            rw [wrapInt_eq (by omega) (by omega)]
            simp) (by simpa using hx) (by rw [hl]; exact hlen) hf]
        simp

theorem encodeVarintTarsum_mid {v w : Nat} {d a x s : Bytes} {i : Int} (hw : w = v)
    (hv : v < 2 ^ 64) (hd : d = a ++ x ++ s) (hi : i = ((a ++ x).length : Int))
    (hx : x.length = sovTarsum v) (hlen : d.length < 2 ^ 63) :
    encodeVarintTarsum d i w = .ok (a ++ uvarint v ++ s, (a.length : Int)) := by
  rw [hw]
  unfold encodeVarintTarsum
  have hoff : wrapInt (i - (sovTarsum v : Int)) = (a.length : Int) := by
    subst hi hd
    simp at hlen
    rw [wrapInt_eq (by simp; omega) (by simp; omega)]
    simp
    omega
  simp only [hoff]
  rw [encodeVarintLoop_mid 10 v d a x s _ (lt_trans hv (by decide)) hd rfl
    (by rw [hx]; exact (uvarint_length hv).symm) hlen (by decide)]
  rfl

theorem split_suffix (x : Bytes) (n : Nat) (h : n ≤ x.length) :
    ∃ x1 x2 : Bytes, x = x1 ++ x2 ∧ x2.length = n ∧ x1.length = x.length - n := by
  refine ⟨x.take (x.length - n), x.drop (x.length - n), (List.take_append_drop _ _).symm, ?_, ?_⟩
  · simp; omega
  · simp

theorem entryBody_length (k v : Bytes) : (entryBody k v).length = entryLen k v := by
  simp [entryBody, entryLen]; omega

theorem wireEntry_length (k v : Bytes) :
    (wireEntry k v).length = 1 + (uvarint (entryLen k v)).length + entryLen k v := by
  simp [wireEntry, entryBody_length]; omega

theorem marshalEntry_mid {k v d a x s : Bytes} (hd : d = a ++ x ++ s)
    (hx : x.length = (wireEntry k v).length) (hlen : d.length < 2 ^ 63) :
    marshalEntry d ((a ++ x).length : Int) k v = .ok (a ++ wireEntry k v ++ s, (a.length : Int)) := by
  have hdl : d.length = a.length + x.length + s.length := by subst hd; simp; omega
  have hw := wireEntry_length k v
  have hn : entryLen k v < 2 ^ 63 := by omega
  have hklen : k.length < 2 ^ 63 := by unfold entryLen at hn; omega
  have hvlen : v.length < 2 ^ 63 := by unfold entryLen at hn; omega
  have hsn := uvarint_length (lt_trans hn (by decide))
  have hsk := uvarint_length (lt_trans hklen (by decide))
  have hsv := uvarint_length (lt_trans hvlen (by decide))
  have hnE : entryLen k v = 2 + k.length + v.length + sovTarsum k.length + sovTarsum v.length := by
    rw [← hsk, ← hsv]; rfl
  obtain ⟨x7, c8, rfl, h8, h7'⟩ := split_suffix x v.length (by omega)
  obtain ⟨x6, c7, rfl, h7, h6'⟩ := split_suffix x7 (sovTarsum v.length) (by omega)
  obtain ⟨x5, c6, rfl, h6, h5'⟩ := split_suffix x6 1 (by omega)
  obtain ⟨x4, c5, rfl, h5, h4'⟩ := split_suffix x5 k.length (by simp at *; omega)
  obtain ⟨x3, c4, rfl, h4, h3'⟩ := split_suffix x4 (sovTarsum k.length) (by simp at *; omega)
  obtain ⟨x2, c3, rfl, h3, h2'⟩ := split_suffix x3 1 (by simp at *; omega)
  obtain ⟨c1, c2, rfl, h2, h1'⟩ := split_suffix x2 (sovTarsum (entryLen k v)) (by simp at *; omega)
  have h1 : c1.length = 1 := by simp at *; omega
  obtain ⟨y1, rfl⟩ := List.length_eq_one.1 h1
  obtain ⟨y3, rfl⟩ := List.length_eq_one.1 h3
  obtain ⟨y6, rfl⟩ := List.length_eq_one.1 h6
  clear h7' h6' h5' h4' h3' h2' h1' hw hx
  simp only [List.length_append, List.length_cons, List.length_nil] at hdl
  unfold marshalEntry
  simp only [bind, Except.bind, pure, Except.pure]
  rw [copyTo_mid (a := a ++ [y1] ++ c2 ++ [y3] ++ c4 ++ c5 ++ [y6] ++ c7) (x := c8) (s := s)
    (w := v) ?_ ?_ h8]
  rotate_left
  · rw [hd]; simp
  · unfold wrapInt
    simp only [List.length_append, List.length_cons, List.length_nil, Nat.cast_add, Nat.cast_one,
      Nat.cast_zero]
    omega
  simp only
  rw [encodeVarintTarsum_mid (v := v.length) (a := a ++ [y1] ++ c2 ++ [y3] ++ c4 ++ c5 ++ [y6])
    (x := c7) (s := v ++ s) ?_ (lt_trans hvlen (by decide)) ?_ ?_ h7 ?_]
  rotate_left
  · exact toUint64_natCast (lt_trans hvlen (by decide))
  · simp
  · unfold wrapInt
    simp only [List.length_append, List.length_cons, List.length_nil, Nat.cast_add, Nat.cast_one,
      Nat.cast_zero]
    omega
  · simp; omega
  simp only
  rw [setIdx_mid (a := a ++ [y1] ++ c2 ++ [y3] ++ c4 ++ c5) (y := y6)
    (s := uvarint v.length ++ (v ++ s)) ?_ ?_]
  rotate_left
  · simp
  · unfold wrapInt
    simp only [List.length_append, List.length_cons, List.length_nil, Nat.cast_add, Nat.cast_one,
      Nat.cast_zero]
    omega
  simp only
  rw [copyTo_mid (a := a ++ [y1] ++ c2 ++ [y3] ++ c4) (x := c5)
    (s := 18 :: (uvarint v.length ++ (v ++ s))) (w := k) ?_ ?_ h5]
  rotate_left
  · simp
  · unfold wrapInt
    simp only [List.length_append, List.length_cons, List.length_nil, Nat.cast_add, Nat.cast_one,
      Nat.cast_zero]
    omega
  simp only
  rw [encodeVarintTarsum_mid (v := k.length) (a := a ++ [y1] ++ c2 ++ [y3])
    (x := c4) (s := k ++ 18 :: (uvarint v.length ++ (v ++ s))) ?_ (lt_trans hklen (by decide))
    ?_ ?_ h4 ?_]
  rotate_left
  · exact toUint64_natCast (lt_trans hklen (by decide))
  · simp
  · unfold wrapInt
    simp only [List.length_append, List.length_cons, List.length_nil, Nat.cast_add, Nat.cast_one,
      Nat.cast_zero]
    omega
  · simp [hsv]; omega
  simp only
  rw [setIdx_mid (a := a ++ [y1] ++ c2) (y := y3)
    (s := uvarint k.length ++ (k ++ 18 :: (uvarint v.length ++ (v ++ s)))) ?_ ?_]
  rotate_left
  · simp
  · unfold wrapInt
    simp only [List.length_append, List.length_cons, List.length_nil, Nat.cast_add, Nat.cast_one,
      Nat.cast_zero]
    omega
  simp only
  rw [encodeVarintTarsum_mid (v := entryLen k v) (a := a ++ [y1])
    (x := c2) (s := 10 :: (uvarint k.length ++ (k ++ 18 :: (uvarint v.length ++ (v ++ s)))))
    ?_ (lt_trans hn (by decide)) ?_ ?_ h2 ?_]
  rotate_left
  · unfold toUint64 wrapInt
    simp only [List.length_append, List.length_cons, List.length_nil, Nat.cast_add, Nat.cast_one,
      Nat.cast_zero]
    omega
  · simp
  · unfold wrapInt
    simp only [List.length_append, List.length_cons, List.length_nil, Nat.cast_add, Nat.cast_one,
      Nat.cast_zero]
    omega
  · simp [hsv, hsk]; omega
  simp only
  rw [setIdx_mid (a := a) (y := y1)
    (s := uvarint (entryLen k v) ++
      10 :: (uvarint k.length ++ (k ++ 18 :: (uvarint v.length ++ (v ++ s))))) ?_ ?_]
  rotate_left
  · simp
  · unfold wrapInt
    simp only [List.length_append, List.length_cons, List.length_nil, Nat.cast_add, Nat.cast_one,
      Nat.cast_zero]
    omega
  simp [wireEntry, entryBody]
  rw [wrapInt_eq] <;> omega

/-! ## `Size`, `MarshalToSizedBuffer` and `Marshal` against the wire format -/

theorem wire_append (l1 l2 : GoMap) : wire (l1 ++ l2) = wire l1 ++ wire l2 := by
  induction l1 with
  | nil => rfl
  | cons e l1 ih =>
    obtain ⟨k, v⟩ := e
    simp [wire, ih]

theorem wire_reverse_cons (k v : Bytes) (rest : GoMap) :
    wire ((k, v) :: rest).reverse = wire rest.reverse ++ wireEntry k v := by
  simp [wire_append, wire]

theorem wire_length_perm {l1 l2 : GoMap} (h : l1.Perm l2) : (wire l1).length = (wire l2).length := by
  induction h with
  | nil => rfl
  | cons e _ ih =>
    obtain ⟨k, v⟩ := e
    simp [wire, ih]
  | swap e1 e2 l =>
    obtain ⟨k1, v1⟩ := e1
    obtain ⟨k2, v2⟩ := e2
    simp [wire]
    omega
  | trans _ _ ih1 ih2 => rw [ih1, ih2]

theorem wire_length_reverse (l : GoMap) : (wire l.reverse).length = (wire l).length :=
  wire_length_perm (List.reverse_perm l)

theorem mapEntrySize_eq {k v : Bytes} (h : entryLen k v < 2 ^ 63) :
    mapEntrySize k v = (entryLen k v : Int) := by
  have hk : k.length < 2 ^ 64 := by unfold entryLen at h; omega
  have hv : v.length < 2 ^ 64 := by unfold entryLen at h; omega
  unfold mapEntrySize
  rw [toUint64_natCast hk, toUint64_natCast hv, ← uvarint_length hk, ← uvarint_length hv]
  rw [wrapInt_eq]
  · unfold entryLen; push_cast; ring
  · omega
  · unfold entryLen at h; omega

theorem sizeLoop_eq (es : GoMap) : ∀ n : Nat, n + (wire es).length < 2 ^ 63 →
    sizeLoop es (n : Int) = ((n + (wire es).length : Nat) : Int) := by
  induction es with
  | nil => intro n _; simp [sizeLoop, wire]
  | cons e es ih =>
    obtain ⟨k, v⟩ := e
    intro n h
    have hw := wireEntry_length k v
    simp only [wire, List.length_append] at h
    have hn : entryLen k v < 2 ^ 63 := by omega
    unfold sizeLoop
    rw [mapEntrySize_eq hn, toUint64_natCast (lt_trans hn (by decide)),
      ← uvarint_length (lt_trans hn (by decide))]
    have e1 : wrapInt ((n : Int) + ((entryLen k v : Int) + 1 + ((uvarint (entryLen k v)).length : Int)))
        = ((n + (wireEntry k v).length : Nat) : Int) := by
      rw [wrapInt_eq] <;> (push_cast; omega)
    rw [e1, ih _ (by omega)]
    simp [wire]
    omega

theorem Size_eq {es : GoMap} (h : (wire es).length < 2 ^ 63) : Size es = ((wire es).length : Int) := by
  unfold Size
  split
  · have := sizeLoop_eq es 0 (by simpa using h)
    simpa using this
  · have : es = [] := by
      cases es with
      | nil => rfl
      | cons _ _ => simp at *
    subst this
    rfl

theorem marshalLoop_mid (es : GoMap) : ∀ (d a x s : Bytes), d = a ++ x ++ s →
    x.length = (wire es).length → d.length < 2 ^ 63 →
    marshalLoop es d ((a ++ x).length : Int) = .ok (a ++ wire es.reverse ++ s, (a.length : Int)) := by
  induction es with
  | nil =>
    intro d a x s hd hx _
    have : x = [] := List.length_eq_zero.1 (by simpa [wire] using hx)
    subst this
    simp [marshalLoop, wire, hd]
  | cons e es ih =>
    obtain ⟨k, v⟩ := e
    intro d a x s hd hx hlen
    simp only [wire, List.length_append] at hx
    obtain ⟨x1, x2, rfl, h2, h1⟩ := split_suffix x (wireEntry k v).length (by omega)
    unfold marshalLoop
    have hm := marshalEntry_mid (k := k) (v := v) (d := d) (a := a ++ x1) (x := x2) (s := s)
      (by simp [hd]) h2 hlen
    simp only [List.append_assoc] at hm ⊢
    rw [hm]
    simp only
    have hi := ih (a ++ (x1 ++ (wireEntry k v ++ s))) a x1 (wireEntry k v ++ s) (by simp)
      (by omega) (by
        subst hd
        simp only [List.length_append] at hlen ⊢
        omega)
    simp only [List.append_assoc] at hi
    rw [hi, wire_reverse_cons]
    simp

theorem MarshalToSizedBuffer_eq {es : GoMap} {buf : Bytes} (hb : buf.length = (wire es).length)
    (hlen : (wire es).length < 2 ^ 63) :
    MarshalToSizedBuffer es buf = .ok (wire es.reverse, (buf.length : Int)) := by
  unfold MarshalToSizedBuffer
  split
  · have h := marshalLoop_mid es buf [] buf [] (by simp) hb (by omega)
    simp only [List.nil_append, List.append_nil, List.length_nil, Nat.cast_zero] at h
    simp only [h, sub_zero]
    rw [wrapInt_eq (by omega) (by omega)]
  · have : es = [] := by
      cases es with
      | nil => rfl
      | cons _ _ => simp at *
    subst this
    have hb0 : buf = [] := List.length_eq_zero.1 (by simpa [wire] using hb)
    subst hb0
    rfl

theorem slice_all (d : Bytes) : slice d 0 (d.length : Int) = .ok d := by
  unfold slice
  rw [if_pos (by simp)]
  simp

theorem Marshal_eq_wire {sz es : GoMap} (hp : sz.Perm es) (hlen : (wire es).length < 2 ^ 63) :
    Marshal sz es = .ok (wire es.reverse) := by
  have hl := wire_length_perm hp
  unfold Marshal
  rw [Size_eq (by omega)]
  have hm : makeBytes ((wire sz).length : Int) = .ok (List.replicate (wire sz).length 0) := by
    unfold makeBytes
    rw [if_pos (by omega)]
    simp
  simp only [bind, Except.bind, hm]
  have hs := slice_all (List.replicate (wire sz).length 0)
  simp only [List.length_replicate] at hs
  rw [hs]
  simp only
  rw [MarshalToSizedBuffer_eq (by simp [hl]) hlen]
  simp only [List.length_replicate]
  have hs2 := slice_all (wire es.reverse)
  rw [wire_length_reverse, ← hl] at hs2
  exact hs2

/-! ## Reading varints -/

theorem getD_append_cons (a s : Bytes) (y : Nat) : (a ++ y :: s).getD a.length 0 = y := by
  induction a with
  | nil => rfl
  | cons b a ih => simpa using ih

theorem getIdx_mid {d a s : Bytes} {y : Nat} {i : Int} (hd : d = a ++ y :: s)
    (hi : i = (a.length : Int)) : getIdx d i = .ok y := by
  subst hd hi
  unfold getIdx
  rw [if_pos (by simp)]
  simp only [Int.toNat_ofNat, getD_append_cons]

theorem lor_shift {acc c shift : Nat} (hacc : acc < 2 ^ shift)
    (h : acc + c * 2 ^ shift < 18446744073709551616) :
    acc ||| ((c <<< shift) % 18446744073709551616) = acc + c * 2 ^ shift := by
  rw [Nat.shiftLeft_eq, Nat.mod_eq_of_lt (by omega), Nat.lor_comm, Nat.mul_comm c,
    ← Nat.mul_add_lt_is_or hacc, Nat.add_comm]

theorem and_7f (b : Nat) : b &&& 0x7F = b % 128 := Nat.and_pow_two_sub_one_eq_mod b 7

theorem readVarint_mid (f : Nat) : ∀ (g v shift acc : Nat) (d a s : Bytes) (i : Int),
    f ≤ g → v < 2 ^ (7 * f) → 0 < f → d = a ++ uvarintAux f v ++ s → i = (a.length : Int) →
    d.length < 2 ^ 63 → acc < 2 ^ shift → acc + v * 2 ^ shift < 18446744073709551616 →
    shift < 64 →
    readVarint d g shift acc i
      = .ok (acc + v * 2 ^ shift, ((a.length + (uvarintAux f v).length : Nat) : Int)) := by
  induction f with
  | zero => intro g v shift acc d a s i _ _ h; omega
  | succ f ih =>
    intro g v shift acc d a s i hg hv _ hd hi hlen hacc hsum hshift
    obtain ⟨g, rfl⟩ : ∃ g', g = g' + 1 := ⟨g - 1, by omega⟩
    unfold uvarintAux at hd ⊢
    unfold readVarint
    have hdl : a.length < d.length := by
      subst hd
      split <;> simp
    rw [if_neg (by omega), if_neg (by omega)]
    by_cases h : v < 128
    · rw [if_pos h] at hd ⊢
      rw [getIdx_mid (a := a) (y := v) (s := s) (by simpa using hd) hi]
      simp only
      rw [if_pos h, and_7f, Nat.mod_eq_of_lt h, lor_shift hacc hsum, hi,
        wrapInt_eq (by omega) (by omega)]
      simp
    · rw [if_neg h] at hd ⊢
      rw [getIdx_mid (a := a) (y := v % 128 + 128) (s := uvarintAux f (v / 128) ++ s)
        (by simpa using hd) hi]
      simp only
      rw [if_neg (by omega), and_7f]
      have hb : (v % 128 + 128) % 128 = v % 128 := by omega
      rw [hb]
      have hvd : v = 128 * (v / 128) + v % 128 := (Nat.div_add_mod v 128).symm
      have hr : v % 128 < 128 := Nat.mod_lt _ (by decide)
      have hq : 1 ≤ v / 128 := by omega
      generalize v / 128 = q at *
      generalize v % 128 = r at *
      have hP : 0 < 2 ^ shift := Nat.two_pow_pos _
      have e1 : (128 * q + r) * 2 ^ shift = r * 2 ^ shift + q * 2 ^ (shift + 7) := by
        rw [pow_add]; ring
      have hrP : r * 2 ^ shift ≤ 127 * 2 ^ shift := Nat.mul_le_mul_right _ (by omega)
      have hqP : 2 ^ (shift + 7) ≤ q * 2 ^ (shift + 7) := Nat.le_mul_of_pos_left _ (by omega)
      have e7 : (2 : Nat) ^ (shift + 7) = 128 * 2 ^ shift := by rw [pow_add]; ring
      rw [hvd, e1] at hsum
      have hs7 : shift + 7 < 64 := by
        have : (2 : Nat) ^ (shift + 7) < 2 ^ 64 := by omega
        exact (Nat.pow_lt_pow_iff_right (by decide)).1 this
      rw [lor_shift hacc (by omega)]
      have hq2 : q < 2 ^ (7 * f) := by
        rw [hvd] at hv
        have := div128_lt hv
        omega
      have hf : 0 < f := by
        rcases Nat.eq_zero_or_pos f with h0 | h0
        · subst h0; simp at hq2; omega
        · exact h0
      rw [ih g q (shift + 7) (acc + r * 2 ^ shift) d (a ++ [r + 128]) s (wrapInt (i + 1))
        (by omega) hq2 hf (by simpa using hd)
        (by rw [hi, wrapInt_eq (by omega) (by omega)]; simp) hlen (by omega) (by omega) hs7]
      rw [hvd, e1]
      simp
      constructor <;> omega

theorem uvarintAux_lt (f : Nat) : ∀ v : Nat, v < 2 ^ (7 * f) → 0 < f →
    (uvarintAux f v).length ≤ f := by
  induction f with
  | zero => intro v _ h; omega
  | succ f ih =>
    intro v hv _
    unfold uvarintAux
    by_cases h : v < 128
    · rw [if_pos h]; simp
    · rw [if_neg h]
      have := ih (v / 128) (div128_lt hv) (fuel_pos hv (by omega))
      simp
      omega

theorem readVarint_uvarint {v : Nat} {d a s : Bytes} {i : Int} (hv : v < 2 ^ 64)
    (hd : d = a ++ uvarint v ++ s) (hi : i = (a.length : Int)) (hlen : d.length < 2 ^ 63) :
    readVarint d 11 0 0 i = .ok (v, ((a ++ uvarint v).length : Int)) := by
  have h := readVarint_mid 10 11 v 0 0 d a s i (by decide) (lt_trans hv (by decide)) (by decide)
    hd hi hlen (by decide) (by simpa using hv) (by decide)
  rw [h]
  simp [uvarint]

/-! ## `Unmarshal` on encoded entries -/

theorem slice_mid {d a x s : Bytes} {lo hi : Int} (hd : d = a ++ x ++ s)
    (hlo : lo = (a.length : Int)) (hhi : hi = ((a ++ x).length : Int)) :
    slice d lo hi = .ok x := by
  subst hd hlo hhi
  unfold slice
  rw [if_pos (by simp)]
  simp only [Int.toNat_ofNat, List.length_append]
  rw [List.append_assoc, List.take_append, List.take_left' rfl, List.drop_left' rfl]

theorem readString_mid {t d a s : Bytes} {i : Int}
    (hd : d = a ++ uvarint t.length ++ t ++ s) (hi : i = (a.length : Int))
    (hlen : d.length < 2 ^ 63) :
    readString d i = .ok (t, ((a ++ uvarint t.length ++ t).length : Int)) := by
  have hdl : d.length = a.length + (uvarint t.length).length + t.length + s.length := by
    subst hd; simp; omega
  unfold readString
  rw [readVarint_uvarint (v := t.length) (a := a) (s := t ++ s) (by omega) (by simp [hd]) hi hlen]
  simp only
  rw [toInt_eq (by omega), if_neg (by omega)]
  have e : wrapInt (((a ++ uvarint t.length).length : Int) + (t.length : Int))
      = ((a ++ uvarint t.length ++ t).length : Int) := by
    rw [wrapInt_eq] <;> simp <;> omega
  rw [e, if_neg (by omega), if_neg (by simp [hdl]; omega)]
  rw [slice_mid (a := a ++ uvarint t.length) (x := t) (s := s) hd rfl rfl]

theorem uvarint_10 : uvarint 10 = [10] := by decide

theorem uvarint_18 : uvarint 18 = [18] := by decide

theorem entryLoop_body {k v d a s : Bytes} (fuel : Nat) (mk mv : Bytes)
    (hd : d = a ++ entryBody k v ++ s) (hlen : d.length < 2 ^ 63) :
    entryLoop d ((a ++ entryBody k v).length : Int) (fuel + 3) mk mv (a.length : Int)
      = .ok (k, v) := by
  have hdl : d.length = a.length + (entryBody k v).length + s.length := by
    subst hd; simp; omega
  have hb : (entryBody k v).length
      = 2 + (uvarint k.length).length + k.length + (uvarint v.length).length + v.length := by
    simp [entryBody]; omega
  -- first field: the key
  rw [entryLoop, if_pos (by simp; omega)]
  simp only
  rw [readVarint_uvarint (v := 10) (a := a)
    (s := uvarint k.length ++ k ++ ([0x12] ++ uvarint v.length ++ v) ++ s) (by decide)
    (by simp [hd, entryBody, uvarint_10]) rfl hlen]
  simp only
  rw [if_pos (by decide)]
  rw [readString_mid (t := k) (a := a ++ uvarint 10)
    (s := [0x12] ++ uvarint v.length ++ v ++ s) (by simp [hd, entryBody, uvarint_10]) rfl hlen]
  simp only
  -- second field: the value
  rw [entryLoop, if_pos (by simp [uvarint_10]; omega)]
  simp only
  rw [readVarint_uvarint (v := 18) (a := a ++ uvarint 10 ++ uvarint k.length ++ k)
    (s := uvarint v.length ++ v ++ s) (by decide)
    (by simp [hd, entryBody, uvarint_10, uvarint_18]) rfl hlen]
  simp only
  rw [if_neg (by decide), if_pos (by decide)]
  rw [readString_mid (t := v) (a := a ++ uvarint 10 ++ uvarint k.length ++ k ++ uvarint 18)
    (s := s) (by simp [hd, entryBody, uvarint_10, uvarint_18]) rfl hlen]
  simp only
  rw [entryLoop, if_neg (by simp [entryBody, uvarint_10, uvarint_18])]

theorem entries_init (H : Option GoMap) : entries (if H = none then some [] else H) = entries H := by
  cases H <;> simp [entries]

theorem unmarshalField_entry {k v d a s : Bytes} (H : Option GoMap)
    (hd : d = a ++ wireEntry k v ++ s) (hlen : d.length < 2 ^ 63) :
    unmarshalField d H (a.length : Int)
      = (some (mapSet (entries H) k v), .ok ((a ++ wireEntry k v).length : Int)) := by
  have hw := wireEntry_length k v
  have hb := entryBody_length k v
  have hdl : d.length = a.length + (wireEntry k v).length + s.length := by
    subst hd; simp; omega
  have hn : entryLen k v < 2 ^ 63 := by omega
  unfold unmarshalField
  simp only
  rw [readVarint_uvarint (v := 10) (a := a) (s := uvarint (entryLen k v) ++ entryBody k v ++ s)
    (by decide) (by simp [hd, wireEntry, uvarint_10]) rfl hlen]
  simp only
  rw [if_neg (by decide), if_neg (by decide), if_pos (by decide)]
  unfold unmarshalHashes
  rw [if_neg (by decide)]
  rw [readVarint_uvarint (v := entryLen k v) (a := a ++ uvarint 10) (s := entryBody k v ++ s)
    (lt_trans hn (by decide)) (by simp [hd, wireEntry, uvarint_10]) rfl hlen]
  dsimp only
  rw [toInt_eq hn, if_neg (by omega)]
  have e : wrapInt (((a ++ uvarint 10 ++ uvarint (entryLen k v)).length : Int) + (entryLen k v : Int))
      = ((a ++ uvarint 10 ++ uvarint (entryLen k v) ++ entryBody k v).length : Int) := by
    rw [wrapInt_eq] <;> simp [uvarint_10, hb] <;> omega
  rw [e, if_neg (by omega), if_neg (by simp [hdl, hw, hb, uvarint_10]; omega)]
  have hn2 : 2 ≤ entryLen k v := by unfold entryLen; omega
  obtain ⟨fuel, hf⟩ : ∃ fuel, d.length + 1 = fuel + 3 := ⟨d.length - 2, by omega⟩
  rw [hf, entryLoop_body (a := a ++ uvarint 10 ++ uvarint (entryLen k v)) (s := s) fuel [] []
    (by simp [hd, wireEntry, uvarint_10]) hlen]
  simp only [entries_init]
  simp [wireEntry, uvarint_10]

theorem unmarshalLoop_step (es : GoMap) : ∀ (fuel : Nat) (H : Option GoMap) (d a s : Bytes),
    d = a ++ wire es ++ s → d.length < 2 ^ 63 →
    unmarshalLoop d (fuel + es.length) H (a.length : Int)
      = unmarshalLoop d fuel (insertAll H es) ((a ++ wire es).length : Int) := by
  induction es with
  | nil => intro fuel H d a s _ _; simp [wire, insertAll]
  | cons e es ih =>
    obtain ⟨k, v⟩ := e
    intro fuel H d a s hd hlen
    have hw := wireEntry_length k v
    have hdl : d.length = a.length + (wireEntry k v).length + (wire es).length + s.length := by
      subst hd; simp [wire]; omega
    rw [show fuel + ((k, v) :: es).length = (fuel + es.length) + 1 by simp; omega]
    rw [unmarshalLoop, if_pos (by omega)]
    rw [unmarshalField_entry (k := k) (v := v) (a := a) (s := wire es ++ s) H
      (by simp [hd, wire]) hlen]
    simp only
    rw [ih fuel _ d (a ++ wireEntry k v) s (by simp [hd, wire]) hlen]
    simp [wire, insertAll]

theorem unmarshalLoop_end (d : Bytes) (fuel : Nat) (H : Option GoMap) :
    unmarshalLoop d (fuel + 1) H (d.length : Int) = (H, .ok ()) := by
  rw [unmarshalLoop, if_neg (by omega), if_neg (by omega)]

theorem length_le_wire (es : GoMap) : es.length ≤ (wire es).length := by
  induction es with
  | nil => simp
  | cons e es ih =>
    obtain ⟨k, v⟩ := e
    have := wireEntry_length k v
    simp [wire]
    omega

theorem Unmarshal_wire (m : TarsumBackup) (es : GoMap) (hlen : (wire es).length < 2 ^ 63) :
    Unmarshal m (wire es) = (⟨insertAll m.Hashes es⟩, .ok ()) := by
  have hl := length_le_wire es
  unfold Unmarshal
  obtain ⟨fuel, hf⟩ : ∃ fuel, (wire es).length + 1 = (fuel + 1) + es.length :=
    ⟨(wire es).length - es.length, by omega⟩
  have h := unmarshalLoop_step es (fuel + 1) m.Hashes (wire es) [] [] (by simp) hlen
  simp only [List.length_nil, Nat.cast_zero, List.nil_append] at h
  simp only [hf, h, unmarshalLoop_end]

theorem mapSet_fresh {h : GoMap} {k v : Bytes} (hk : k ∉ h.map Prod.fst) :
    mapSet h k v = h ++ [(k, v)] := by
  unfold mapSet
  rw [if_neg]
  simp only [List.any_eq_true, decide_eq_true_eq, not_exists, not_and]
  intro e he hek
  exact hk (List.mem_map.2 ⟨e, he, hek⟩)

theorem insertAll_nodup (es : GoMap) : ∀ H : Option GoMap,
    ((entries H ++ es).map Prod.fst).Nodup → entries (insertAll H es) = entries H ++ es := by
  induction es with
  | nil => intro H _; simp [insertAll]
  | cons e es ih =>
    obtain ⟨k, v⟩ := e
    intro H hnd
    have hk : k ∉ (entries H).map Prod.fst := by
      rw [List.map_append, List.nodup_append] at hnd
      intro hmem
      exact hnd.2.2 hmem (by simp)
    unfold insertAll
    rw [mapSet_fresh hk, ih]
    · simp [entries]
    · simpa [entries] using hnd

theorem insertAll_none_nil : insertAll none [] = none := rfl

theorem readVarint_trunc (f : Nat) : ∀ (g v shift acc : Nat) (d a q : Bytes) (i : Int),
    f ≤ g → v < 2 ^ (7 * f) → 0 < f → q <+: uvarintAux f v → q.length < (uvarintAux f v).length →
    d = a ++ q → i = (a.length : Int) →
    d.length < 2 ^ 63 → acc < 2 ^ shift → acc + v * 2 ^ shift < 18446744073709551616 →
    shift < 64 →
    readVarint d g shift acc i = .error .ErrUnexpectedEOF := by
  induction f with
  | zero => intro g v shift acc d a q i _ _ h; omega
  | succ f ih =>
    intro g v shift acc d a q i hg hv _ hq hql hd hi hlen hacc hsum hshift
    obtain ⟨g, rfl⟩ : ∃ g', g = g' + 1 := ⟨g - 1, by omega⟩
    unfold uvarintAux at hq hql
    unfold readVarint
    rw [if_neg (by omega)]
    cases q with
    | nil =>
      rw [if_pos (by subst hd hi; simp)]
    | cons b q =>
      by_cases h : v < 128
      · rw [if_pos h] at hql
        simp at hql
      · rw [if_neg h] at hq hql
        obtain ⟨hb, hq'⟩ := List.cons_prefix_cons.1 hq
        subst hb
        have hdl : a.length < d.length := by subst hd; simp
        rw [if_neg (by subst hd hi; simp)]
        rw [getIdx_mid (a := a) (y := v % 128 + 128) (s := q) hd hi]
        simp only
        rw [if_neg (by omega), and_7f]
        have hb : (v % 128 + 128) % 128 = v % 128 := by omega
        rw [hb]
        have hvd : v = 128 * (v / 128) + v % 128 := (Nat.div_add_mod v 128).symm
        have hr : v % 128 < 128 := Nat.mod_lt _ (by decide)
        have hq1 : 1 ≤ v / 128 := by omega
        have hq2 : v / 128 < 2 ^ (7 * f) := div128_lt hv
        have hf : 0 < f := fuel_pos hv (by omega)
        generalize v / 128 = w at *
        generalize v % 128 = r at *
        have hP : 0 < 2 ^ shift := Nat.two_pow_pos _
        have e1 : (128 * w + r) * 2 ^ shift = r * 2 ^ shift + w * 2 ^ (shift + 7) := by
          rw [pow_add]; ring
        have hrP : r * 2 ^ shift ≤ 127 * 2 ^ shift := Nat.mul_le_mul_right _ (by omega)
        have hqP : 2 ^ (shift + 7) ≤ w * 2 ^ (shift + 7) := Nat.le_mul_of_pos_left _ (by omega)
        have e7 : (2 : Nat) ^ (shift + 7) = 128 * 2 ^ shift := by rw [pow_add]; ring
        rw [hvd, e1] at hsum
        have hs7 : shift + 7 < 64 := by
          have : (2 : Nat) ^ (shift + 7) < 2 ^ 64 := by omega
          exact (Nat.pow_lt_pow_iff_right (by decide)).1 this
        rw [lor_shift hacc (by omega)]
        exact ih g w (shift + 7) (acc + r * 2 ^ shift) d (a ++ [r + 128]) q (wrapInt (i + 1))
          (by omega) hq2 hf hq' (by simpa using hql) (by simpa using hd)
          (by rw [hi, wrapInt_eq (by omega) (by omega)]; simp) hlen (by omega) (by omega) hs7

theorem unmarshalField_trunc {k v d a q : Bytes} (H : Option GoMap) (hd : d = a ++ q)
    (hq : q <+: wireEntry k v) (hq0 : q ≠ []) (hql : q.length < (wireEntry k v).length)
    (hlen : a.length + (wireEntry k v).length < 2 ^ 63) :
    (unmarshalField d H (a.length : Int)).2 = .error .ErrUnexpectedEOF := by
  have hw := wireEntry_length k v
  have hb := entryBody_length k v
  have hn : entryLen k v < 2 ^ 63 := by omega
  have hdl : d.length = a.length + q.length := by subst hd; simp
  have hdlen : d.length < 2 ^ 63 := by omega
  cases q with
  | nil => exact absurd rfl hq0
  | cons y q =>
    have hq' : y :: q <+: 10 :: (uvarint (entryLen k v) ++ entryBody k v) := by
      simpa [wireEntry] using hq
    obtain ⟨hy, hq2⟩ := List.cons_prefix_cons.1 hq'
    subst hy
    have hU : uvarint (entryLen k v) <+: uvarint (entryLen k v) ++ entryBody k v :=
      List.prefix_append _ _
    simp only [List.length_cons] at hql hdl
    unfold unmarshalField
    simp only
    rw [readVarint_uvarint (v := 10) (a := a) (s := q)
      (by decide) (by simp [hd, uvarint_10]) rfl hdlen]
    simp only
    rw [if_neg (by decide), if_neg (by decide), if_pos (by decide)]
    unfold unmarshalHashes
    rw [if_neg (by decide)]
    by_cases hlt : q.length < (uvarint (entryLen k v)).length
    · have hqU : q <+: uvarint (entryLen k v) :=
        List.prefix_of_prefix_length_le hq2 hU (by omega)
      rw [readVarint_trunc 10 11 (entryLen k v) 0 0 d (a ++ uvarint 10) q _ (by decide)
        (lt_trans hn (by decide)) (by decide) hqU hlt (by simp [hd, uvarint_10]) rfl hdlen
        (by decide) (by simpa using lt_trans hn (by decide)) (by decide)]
    · have hUq : uvarint (entryLen k v) <+: q :=
        List.prefix_of_prefix_length_le hU hq2 (by omega)
      obtain ⟨q2, rfl⟩ := hUq
      have hq3 : q2 <+: entryBody k v := (List.prefix_append_right_inj _).1 hq2
      simp only [List.length_append] at hql hdl
      rw [readVarint_uvarint (v := entryLen k v) (a := a ++ uvarint 10) (s := q2)
        (lt_trans hn (by decide)) (by simp [hd, uvarint_10]) rfl hdlen]
      dsimp only
      rw [toInt_eq hn, if_neg (by omega)]
      have e : wrapInt (((a ++ uvarint 10 ++ uvarint (entryLen k v)).length : Int)
          + (entryLen k v : Int))
          = ((a.length + 1 + (uvarint (entryLen k v)).length + entryLen k v : Nat) : Int) := by
        rw [wrapInt_eq] <;> simp [uvarint_10] <;> omega
      rw [e, if_neg (by omega), if_pos (by omega)]

theorem prefix_wire (es : GoMap) : ∀ p : Bytes, p <+: wire es →
    (∃ j, p = wire (es.take j)) ∨
    ∃ (l1 : GoMap) (k v : Bytes) (l2 : GoMap) (q : Bytes),
      es = l1 ++ (k, v) :: l2 ∧ p = wire l1 ++ q ∧ q <+: wireEntry k v ∧ q ≠ [] ∧
        q.length < (wireEntry k v).length := by
  induction es with
  | nil =>
    intro p hp
    left
    exact ⟨0, by simpa [wire] using hp⟩
  | cons e es ih =>
    obtain ⟨k, v⟩ := e
    intro p hp
    simp only [wire] at hp
    have hW : wireEntry k v <+: wireEntry k v ++ wire es := List.prefix_append _ _
    by_cases hl : (wireEntry k v).length ≤ p.length
    · obtain ⟨p2, rfl⟩ := List.prefix_of_prefix_length_le hW hp hl
      have hp2 : p2 <+: wire es := (List.prefix_append_right_inj _).1 hp
      rcases ih p2 hp2 with ⟨j, rfl⟩ | ⟨l1, k2, v2, l2, q, rfl, rfl, hq, hq0, hql⟩
      · left
        exact ⟨j + 1, by simp [wire]⟩
      · right
        exact ⟨(k, v) :: l1, k2, v2, l2, q, by simp, by simp [wire], hq, hq0, hql⟩
    · have hpW : p <+: wireEntry k v := List.prefix_of_prefix_length_le hp hW (by omega)
      by_cases hp0 : p = []
      · left
        exact ⟨0, by simp [hp0, wire]⟩
      · right
        exact ⟨[], k, v, es, p, by simp, by simp [wire], hpW, hp0, by omega⟩

theorem Unmarshal_trunc (m : TarsumBackup) {l1 l2 : GoMap} {k v q : Bytes}
    (hlen : (wire (l1 ++ (k, v) :: l2)).length < 2 ^ 63)
    (hq : q <+: wireEntry k v) (hq0 : q ≠ []) (hql : q.length < (wireEntry k v).length) :
    (Unmarshal m (wire l1 ++ q)).2 = .error .ErrUnexpectedEOF := by
  have hl := length_le_wire l1
  have hwl : (wire (l1 ++ (k, v) :: l2)).length
      = (wire l1).length + (wireEntry k v).length + (wire l2).length := by
    simp [wire_append, wire]; omega
  have hq1 : 0 < q.length := List.length_pos.2 hq0
  have hdlen : (wire l1 ++ q).length < 2 ^ 63 := by simp; omega
  unfold Unmarshal
  obtain ⟨fuel, hf⟩ : ∃ fuel, (wire l1 ++ q).length + 1 = (fuel + 1) + l1.length :=
    ⟨(wire l1 ++ q).length - l1.length, by simp; omega⟩
  have h := unmarshalLoop_step l1 (fuel + 1) m.Hashes (wire l1 ++ q) [] q (by simp) hdlen
  simp only [List.length_nil, Nat.cast_zero, List.nil_append] at h
  simp only [hf, h]
  rw [unmarshalLoop, if_pos (by simp; omega)]
  have ht := unmarshalField_trunc (k := k) (v := v) (d := wire l1 ++ q) (a := wire l1) (q := q)
    (insertAll m.Hashes l1) rfl hq hq0 hql (by omega)
  rcases hx : unmarshalField (wire l1 ++ q) (insertAll m.Hashes l1) ((wire l1).length : Int)
    with ⟨H2, r2⟩
  rw [hx] at ht
  simp only at ht
  subst ht
  rfl

/-- C2. Wire format of `Marshal`: whenever the encoded size fits a Go `int`, the
bytes returned by `Marshal` are the concatenation, over the entries taken in the
reverse of the order in which `MarshalToSizedBuffer` ranges over the map, of
`0x0A`, the varint of the entry length, `0x0A`, the varint of `len(k)`, the bytes
of `k`, `0x12`, the varint of `len(v)` and the bytes of `v` (the list `wire`);
for an empty map that is the empty slice. -/
theorem marshal_wire_format (sizeRange range : GoMap) (hp : sizeRange.Perm range)
    (hlen : (wire range).length < 2 ^ 63) :
    Marshal sizeRange range = .ok (wire range.reverse)
      ∧ (range = [] → Marshal sizeRange range = .ok []) := by
  refine ⟨Marshal_eq_wire hp hlen, ?_⟩
  intro h
  subst h
  exact Marshal_eq_wire hp hlen

theorem marshal_wire_format_witness :
    Marshal [([1], [2]), ([], [])] [([], []), ([1], [2])]
        = .ok (wire [([], []), ([1], [2])].reverse)
      ∧ (([([], []), ([1], [2])] : GoMap) = [] →
          Marshal [([1], [2]), ([], [])] [([], []), ([1], [2])] = .ok []) :=
  marshal_wire_format [([1], [2]), ([], [])] [([], []), ([1], [2])] (by decide) (by decide)

/-- C1. Round trip of the persisted checksum map: for every map without
duplicate keys, in whatever orders `Size` and `MarshalToSizedBuffer` range over
it, `Marshal` returns bytes `b` without error (the encoded size fitting a Go
`int`), and `Unmarshal(b)` on a fresh message returns nil and leaves in `Hashes`
exactly the entries of the map. -/
theorem marshal_unmarshal_round_trip (sizeRange range : GoMap) (hp : sizeRange.Perm range)
    (hnd : (range.map Prod.fst).Nodup) (hlen : (wire range).length < 2 ^ 63) :
    ∃ (b : Bytes) (m : TarsumBackup), Marshal sizeRange range = .ok b
      ∧ Unmarshal ⟨none⟩ b = (m, .ok ()) ∧ (entries m.Hashes).Perm range
      ∧ (range = [] → entries m.Hashes = []) := by
  have hl : (wire range.reverse).length < 2 ^ 63 := by rw [wire_length_reverse]; exact hlen
  refine ⟨wire range.reverse, ⟨insertAll none range.reverse⟩, Marshal_eq_wire hp hlen,
    Unmarshal_wire ⟨none⟩ range.reverse hl, ?_, ?_⟩
  · have h := insertAll_nodup range.reverse none (by
      simp only [entries, Option.getD_none, List.nil_append, List.map_reverse]
      exact List.nodup_reverse.2 hnd)
    rw [h]
    simp only [entries, Option.getD_none, List.nil_append]
    exact List.reverse_perm range
  · intro h
    subst h
    rfl

theorem marshal_unmarshal_round_trip_witness :
    ∃ (b : Bytes) (m : TarsumBackup),
      Marshal [([1], [2]), ([], [])] [([], []), ([1], [2])] = .ok b
      ∧ Unmarshal ⟨none⟩ b = (m, .ok ())
      ∧ (entries m.Hashes).Perm [([], []), ([1], [2])]
      ∧ (([([], []), ([1], [2])] : GoMap) = [] → entries m.Hashes = []) :=
  marshal_unmarshal_round_trip [([1], [2]), ([], [])] [([], []), ([1], [2])]
    (by decide) (by decide) (by decide)

/-- C4. Truncated input: for every proper prefix `p` of the bytes `b` returned by
`Marshal`, `Unmarshal(p)` on a fresh message returns nil exactly when `p` ends on
a boundary between two encoded entries (`p` is the encoding of the first `j`
entries written, `j = 0` being the empty prefix), and otherwise returns
`io.ErrUnexpectedEOF`. -/
theorem unmarshal_truncated (sizeRange range : GoMap) (b p : Bytes)
    (hp : sizeRange.Perm range) (hlen : (wire range).length < 2 ^ 63)
    (hm : Marshal sizeRange range = .ok b) (hpre : p <+: b) (hne : p ≠ b) :
    ((Unmarshal ⟨none⟩ p).2 = .ok () ↔ ∃ j, p = wire (range.reverse.take j))
      ∧ ((Unmarshal ⟨none⟩ p).2 = .ok () ∨ (Unmarshal ⟨none⟩ p).2 = .error .ErrUnexpectedEOF) := by
  rw [Marshal_eq_wire hp hlen] at hm
  injection hm with hm
  subst hm
  have hl : (wire range.reverse).length < 2 ^ 63 := by rw [wire_length_reverse]; exact hlen
  rcases prefix_wire range.reverse p hpre with ⟨j, rfl⟩ | ⟨l1, k, v, l2, q, hr, rfl, hq, hq0, hql⟩
  · have hj : (wire (range.reverse.take j)).length < 2 ^ 63 :=
      lt_of_le_of_lt hpre.length_le hl
    rw [Unmarshal_wire _ _ hj]
    exact ⟨⟨fun _ => ⟨j, rfl⟩, fun _ => rfl⟩, Or.inl rfl⟩
  · rw [hr] at hl
    have ht := Unmarshal_trunc ⟨none⟩ hl hq hq0 hql
    rw [ht]
    refine ⟨⟨fun h => by simp at h, ?_⟩, Or.inr rfl⟩
    rintro ⟨j, hj⟩
    exfalso
    have h1 := Unmarshal_wire ⟨none⟩ (range.reverse.take j) (by
      rw [← hj]
      have : (wire l1 ++ q).length ≤ (wire range.reverse).length := hpre.length_le
      rw [hr] at this
      omega)
    rw [← hj, Prod.ext_iff] at h1
    rw [h1.2] at ht
    simp at ht

theorem unmarshal_truncated_witness :
    ((Unmarshal ⟨none⟩ [10, 4, 10, 0] ).2 = .ok ()
        ↔ ∃ j, [10, 4, 10, 0] = wire (([([1], [2]), ([], [])] : GoMap).reverse.take j))
      ∧ ((Unmarshal ⟨none⟩ [10, 4, 10, 0]).2 = .ok ()
        ∨ (Unmarshal ⟨none⟩ [10, 4, 10, 0]).2 = .error .ErrUnexpectedEOF) :=
  unmarshal_truncated [([], []), ([1], [2])] [([1], [2]), ([], [])]
    [10, 4, 10, 0, 18, 0, 10, 6, 10, 1, 1, 18, 1, 2] [10, 4, 10, 0]
    (by decide) (by decide) (by decide) (by decide) (by decide)

theorem varintValue_lt (vs : Bytes) : ∀ shift : Nat, varintValue shift vs < 2 ^ 64 := by
  induction vs with
  | nil => intro shift; simp [varintValue]
  | cons b vs ih =>
    intro shift
    unfold varintValue
    exact Nat.or_lt_two_pow (Nat.mod_lt _ (by decide)) (ih _)

theorem readVarint_overflow (cs : Bytes) : ∀ (g shift acc : Nat) (d a s : Bytes) (i : Int),
    cs.length < g → (∀ b ∈ cs, 128 ≤ b) → 64 ≤ shift + 7 * cs.length → d = a ++ cs ++ s →
    i = (a.length : Int) → a.length + cs.length < 2 ^ 63 →
    readVarint d g shift acc i = .error .ErrIntOverflowTarsum := by
  induction cs with
  | nil =>
    intro g shift acc d a s i hg _ hs _ _ _
    obtain ⟨g, rfl⟩ : ∃ g', g = g' + 1 := ⟨g - 1, by simp at hg; omega⟩
    rw [readVarint, if_pos (by simpa using hs)]
  | cons b cs ih =>
    intro g shift acc d a s i hg hc hs hd hi hlen
    simp only [List.length_cons] at hg hs hlen
    obtain ⟨g, rfl⟩ : ∃ g', g = g' + 1 := ⟨g - 1, by omega⟩
    unfold readVarint
    by_cases h64 : shift ≥ 64
    · rw [if_pos h64]
    · rw [if_neg h64, if_neg (by subst hd hi; simp; omega)]
      rw [getIdx_mid (a := a) (y := b) (s := cs ++ s) (by simpa using hd) hi]
      simp only
      have hb : 128 ≤ b := hc b (by simp)
      rw [if_neg (by omega)]
      exact ih g (shift + 7) _ d (a ++ [b]) s _ (by omega)
        (fun x hx => hc x (by simp [hx])) (by omega) (by simpa using hd)
        (by rw [hi, wrapInt_eq (by omega) (by omega)]; simp) (by simp; omega)

theorem readVarint_complete (cs : Bytes) : ∀ (last g shift acc : Nat) (d a s : Bytes) (i : Int),
    cs.length < g → (∀ b ∈ cs, 128 ≤ b) → last < 128 → shift + 7 * cs.length < 64 →
    d = a ++ cs ++ last :: s → i = (a.length : Int) → a.length + cs.length + 1 < 2 ^ 63 →
    readVarint d g shift acc i
      = .ok (acc ||| varintValue shift (cs ++ [last]), ((a.length + cs.length + 1 : Nat) : Int)) := by
  induction cs with
  | nil =>
    intro last g shift acc d a s i hg _ hl hs hd hi hlen
    obtain ⟨g, rfl⟩ : ∃ g', g = g' + 1 := ⟨g - 1, by simp at hg; omega⟩
    simp only [List.length_nil, Nat.mul_zero, Nat.add_zero, List.append_nil] at hs hd hlen
    rw [readVarint, if_neg (by omega), if_neg (by subst hd hi; simp)]
    rw [getIdx_mid (a := a) (y := last) (s := s) hd hi]
    simp only
    rw [if_pos hl, hi, wrapInt_eq (by omega) (by omega)]
    simp [varintValue]
  | cons b cs ih =>
    intro last g shift acc d a s i hg hc hl hs hd hi hlen
    simp only [List.length_cons] at hg hs hlen
    obtain ⟨g, rfl⟩ : ∃ g', g = g' + 1 := ⟨g - 1, by omega⟩
    rw [readVarint, if_neg (by omega), if_neg (by subst hd hi; simp; omega)]
    rw [getIdx_mid (a := a) (y := b) (s := cs ++ last :: s) (by simpa using hd) hi]
    simp only
    have hb : 128 ≤ b := hc b (by simp)
    rw [if_neg (by omega)]
    rw [ih last g (shift + 7) _ d (a ++ [b]) s _ (by omega)
        (fun x hx => hc x (by simp [hx])) hl (by omega) (by simpa using hd)
        (by rw [hi, wrapInt_eq (by omega) (by omega)]; simp) (by simp; omega)]
    simp only [List.cons_append, varintValue, Nat.lor_assoc, List.length_append, List.length_cons,
      List.length_nil, List.length_cons]
    congr 2
    push_cast
    ring

theorem readVarint_tag {d a s : Bytes} {i : Int} (hd : d = a ++ 10 :: s)
    (hi : i = (a.length : Int)) (hlen : a.length + 1 < 2 ^ 63) :
    readVarint d 11 0 0 i = .ok (10, ((a.length + 1 : Nat) : Int)) := by
  have h := readVarint_complete [] 10 11 0 0 d a s i (by decide) (by simp) (by decide) (by decide)
    (by simpa using hd) hi (by simpa using hlen)
  rw [h]
  rfl

theorem Unmarshal_of_field_error {m : TarsumBackup} {d : Bytes} {e : Stop} (hd : d ≠ [])
    (h : unmarshalField d m.Hashes 0 = (m.Hashes, .error e)) :
    Unmarshal m d = (m, .error e) := by
  unfold Unmarshal
  have hl : 0 < d.length := List.length_pos.2 hd
  rw [unmarshalLoop, if_pos (by omega), h]

/-- C9. Over-long varints: when the input is empty or the byte `0x0A`, followed
by ten bytes that all have the continuation bit set, followed by anything,
`Unmarshal` returns `ErrIntOverflowTarsum` and leaves the receiver as it was. -/
theorem unmarshal_overlong_varint (m : TarsumBackup) (p cs rest : Bytes)
    (hp : p = [] ∨ p = [0x0A]) (hlen : cs.length = 10) (hc : ∀ b ∈ cs, 128 ≤ b) :
    Unmarshal m (p ++ cs ++ rest) = (m, .error .ErrIntOverflowTarsum) := by
  have hne : p ++ cs ++ rest ≠ [] := by
    intro h
    have := congrArg List.length h
    simp only [List.length_append, List.length_nil] at this
    omega
  apply Unmarshal_of_field_error hne
  rcases hp with rfl | rfl
  · unfold unmarshalField
    simp only
    rw [readVarint_overflow cs 11 0 0 ([] ++ cs ++ rest) [] rest 0 (by omega) hc (by omega) rfl
      (by simp) (by simp; omega)]
  · unfold unmarshalField
    simp only
    rw [readVarint_tag (a := []) (s := cs ++ rest) (by simp) (by simp) (by simp)]
    simp only
    rw [if_neg (by decide), if_neg (by decide), if_pos (by decide)]
    unfold unmarshalHashes
    rw [if_neg (by decide)]
    rw [readVarint_overflow cs 11 0 0 ([0x0A] ++ cs ++ rest) [0x0A] rest _ (by omega) hc
      (by omega) rfl (by simp) (by simp; omega)]

theorem unmarshal_overlong_varint_witness :
    Unmarshal ⟨some [([1], [2])]⟩
        ([0x0A] ++ [128, 128, 128, 128, 128, 128, 128, 128, 128, 255] ++ [1, 2, 3])
      = (⟨some [([1], [2])]⟩, .error .ErrIntOverflowTarsum) :=
  unmarshal_overlong_varint ⟨some [([1], [2])]⟩ [0x0A]
    [128, 128, 128, 128, 128, 128, 128, 128, 128, 255] [1, 2, 3] (Or.inr rfl) (by decide)
    (by decide)

/-- C10. Negative lengths: when the input starts with the tag byte `0x0A`
followed by a complete varint of at most ten bytes (`cs` with the continuation
bit set, then `last` without it) whose 64-bit value has bit 63 set, `Unmarshal`
returns `ErrInvalidLengthTarsum` and leaves the receiver as it was, whatever
bytes follow. -/
theorem unmarshal_negative_length (m : TarsumBackup) (cs rest : Bytes) (last : Nat)
    (hlen : cs.length + 1 ≤ 10) (hc : ∀ b ∈ cs, 128 ≤ b) (hl : last < 128)
    (hneg : (varintValue 0 (cs ++ [last])).testBit 63 = true) :
    Unmarshal m (0x0A :: (cs ++ last :: rest)) = (m, .error .ErrInvalidLengthTarsum) := by
  apply Unmarshal_of_field_error (by simp)
  unfold unmarshalField
  simp only
  rw [readVarint_tag (a := []) (s := cs ++ last :: rest) (by simp) (by simp) (by simp)]
  simp only
  rw [if_neg (by decide), if_neg (by decide), if_pos (by decide)]
  unfold unmarshalHashes
  rw [if_neg (by decide)]
  rw [readVarint_complete cs last 11 0 0 (0x0A :: (cs ++ last :: rest)) [0x0A] rest _ (by omega)
    hc hl (by omega) (by simp) (by simp) (by simp; omega)]
  dsimp only
  rw [Nat.zero_or, if_pos (toInt_neg (Nat.testBit_implies_ge hneg) (varintValue_lt _ _))]

theorem unmarshal_negative_length_witness :
    Unmarshal ⟨none⟩ (0x0A :: ([128, 128, 128, 128, 128, 128, 128, 128, 128] ++ 1 :: [7, 7]))
      = (⟨none⟩, .error .ErrInvalidLengthTarsum) :=
  unmarshal_negative_length ⟨none⟩ [128, 128, 128, 128, 128, 128, 128, 128, 128] [7, 7] 1
    (by decide) (by decide) (by decide) (by decide)

/-- C3. `Equal` does not decide map equality: on the two non-nil messages with
`Hashes = {"\x01": ""}` and `Hashes = {"\x02": ""}` it returns true, although
the key `"\x01"` is present in the first map and absent from the second. -/
theorem equal_accepts_different_maps :
    Equal (some ⟨some [([1], [])]⟩) (.pointer (some ⟨some [([2], [])]⟩)) = true
      ∧ (entries (some [([1], [])])).lookup [1] = some []
      ∧ (entries (some [([2], [])])).lookup [1] = none := by
  decide

/-- C12. `Size` agrees with the encoder: when the encoded size fits a Go `int`,
`MarshalToSizedBuffer` on a buffer of length exactly `Size()` stops with no
panic, leaves a buffer that is the encoding whatever the buffer held before
(every byte is written), and returns `(Size(), nil)`; and `Marshal` returns a
slice of length exactly `Size()` and a nil error. -/
theorem size_agrees_with_encoder (sizeRange range : GoMap) (buf : Bytes)
    (hp : sizeRange.Perm range) (hlen : (wire range).length < 2 ^ 63)
    (hb : (buf.length : Int) = Size sizeRange) :
    MarshalToSizedBuffer range buf = .ok (wire range.reverse, Size sizeRange)
      ∧ (wire range.reverse).length = buf.length
      ∧ ∃ b, Marshal sizeRange range = .ok b ∧ (b.length : Int) = Size sizeRange := by
  have hl := wire_length_perm hp
  have hs : Size sizeRange = ((wire sizeRange).length : Int) := Size_eq (by omega)
  have hbl : buf.length = (wire range).length := by
    rw [hs] at hb
    omega
  refine ⟨?_, ?_, wire range.reverse, Marshal_eq_wire hp hlen, ?_⟩
  · rw [MarshalToSizedBuffer_eq hbl hlen, hb]
  · rw [wire_length_reverse, hbl]
  · rw [hs, wire_length_reverse, hl]

theorem size_agrees_with_encoder_witness :
    MarshalToSizedBuffer [([], []), ([1], [2])] [9, 9, 9, 9, 9, 9, 9, 9, 9, 9, 9, 9, 9, 9]
        = .ok (wire ([([], []), ([1], [2])] : GoMap).reverse, Size [([1], [2]), ([], [])])
      ∧ (wire ([([], []), ([1], [2])] : GoMap).reverse).length
        = [9, 9, 9, 9, 9, 9, 9, 9, 9, 9, 9, 9, 9, 9].length
      ∧ ∃ b, Marshal [([1], [2]), ([], [])] [([], []), ([1], [2])] = .ok b
        ∧ (b.length : Int) = Size [([1], [2]), ([], [])] :=
  size_agrees_with_encoder [([1], [2]), ([], [])] [([], []), ([1], [2])]
    [9, 9, 9, 9, 9, 9, 9, 9, 9, 9, 9, 9, 9, 9] (by decide) (by decide) (by decide)

/-! ## `Unmarshal` and `skipTarsum` on arbitrary input -/

theorem getIdx_ok {d : Bytes} {i : Int} (h0 : 0 ≤ i) (h1 : i < d.length) :
    ∃ b, getIdx d i = .ok b := by
  unfold getIdx
  rw [if_pos ⟨h0, h1⟩]
  exact ⟨_, rfl⟩

theorem slice_ok {d : Bytes} {a b : Int} (h0 : 0 ≤ a) (h1 : a ≤ b) (h2 : b ≤ d.length) :
    ∃ x, slice d a b = .ok x ∧ (x.length : Int) = b - a := by
  unfold slice
  rw [if_pos ⟨h0, h1, h2⟩]
  refine ⟨_, rfl, ?_⟩
  simp only [List.length_drop, List.length_take]
  omega

theorem readVarint_safe {d : Bytes} (hl : d.length < 2 ^ 63) (g : Nat) :
    ∀ (s acc : Nat) (i : Int), 64 ≤ s + 7 * g → 0 ≤ i →
    (∃ v j, readVarint d (g + 1) s acc i = .ok (v, j) ∧ i < j ∧ j ≤ d.length)
      ∨ ∃ e, readVarint d (g + 1) s acc i = .error e ∧ Good e := by
  induction g with
  | zero =>
    intro s acc i hs _
    right
    rw [readVarint, if_pos (by omega)]
    exact ⟨_, rfl, by decide, by decide⟩
  | succ g ih =>
    intro s acc i hs hi
    rw [readVarint]
    by_cases h64 : s ≥ 64
    · right
      rw [if_pos h64]
      exact ⟨_, rfl, by decide, by decide⟩
    · rw [if_neg h64]
      by_cases hil : i ≥ d.length
      · right
        rw [if_pos hil]
        exact ⟨_, rfl, by decide, by decide⟩
      · rw [if_neg hil]
        obtain ⟨b, hb⟩ := getIdx_ok hi (by omega : i < d.length)
        rw [hb]
        simp only
        have hw : wrapInt (i + 1) = i + 1 := wrapInt_eq (by omega) (by omega)
        by_cases hb128 : b < 128
        · left
          rw [if_pos hb128]
          exact ⟨_, _, rfl, by omega, by omega⟩
        · rw [if_neg hb128]
          rcases ih (s + 7) (acc ||| (((b &&& 0x7F) <<< s) % 18446744073709551616))
            (wrapInt (i + 1)) (by omega) (by omega) with ⟨v, j, hr, h1, h2⟩ | ⟨e, hr, he⟩
          · left
            exact ⟨v, j, hr, by omega, h2⟩
          · right
            exact ⟨e, hr, he⟩

theorem skipVarint_safe {d : Bytes} (hl : d.length < 2 ^ 63) (g : Nat) :
    ∀ (s : Nat) (i : Int), 64 ≤ s + 7 * g → 0 ≤ i →
    (∃ j, skipVarint d (g + 1) s i = .ok j ∧ i < j ∧ j ≤ d.length)
      ∨ ∃ e, skipVarint d (g + 1) s i = .error e ∧ Good e := by
  induction g with
  | zero =>
    intro s i hs _
    right
    rw [skipVarint, if_pos (by omega)]
    exact ⟨_, rfl, by decide, by decide⟩
  | succ g ih =>
    intro s i hs hi
    rw [skipVarint]
    by_cases h64 : s ≥ 64
    · right
      rw [if_pos h64]
      exact ⟨_, rfl, by decide, by decide⟩
    · rw [if_neg h64]
      by_cases hil : i ≥ d.length
      · right
        rw [if_pos hil]
        exact ⟨_, rfl, by decide, by decide⟩
      · rw [if_neg hil]
        have hw : wrapInt (i + 1) = i + 1 := wrapInt_eq (by omega) (by omega)
        have hw2 : wrapInt (i + 1 - 1) = i := by rw [wrapInt_eq] <;> omega
        obtain ⟨b, hb⟩ := getIdx_ok hi (by omega : i < d.length)
        simp only [hw, hw2, hb]
        by_cases hb128 : b < 128
        · left
          rw [if_pos hb128]
          exact ⟨_, rfl, by omega, by omega⟩
        · rw [if_neg hb128]
          rcases ih (s + 7) (i + 1) (by omega) (by omega) with ⟨j, hr, h1, h2⟩ | ⟨e, hr, he⟩
          · left
            exact ⟨j, hr, by omega, h2⟩
          · right
            exact ⟨e, hr, he⟩

theorem wrapInt_lt (x : Int) : wrapInt x < 9223372036854775808 := by
  unfold wrapInt; omega

theorem wrapInt_ge (x : Int) : -9223372036854775808 ≤ wrapInt x := by
  unfold wrapInt; omega

theorem wrapInt_add_nonneg {x y : Int} (hx0 : 0 ≤ x) (hx : x < 9223372036854775808)
    (hy0 : 0 ≤ y) (hy : y < 9223372036854775808) :
    wrapInt (x + y) < 0 ∨ wrapInt (x + y) = x + y := by
  unfold wrapInt; omega

theorem skipSwitch_safe {d : Bytes} (hl : d.length < 2 ^ 63) (wireType i depth : Int)
    (hi0 : 0 ≤ i) (hi : i ≤ d.length) (hd0 : 0 ≤ depth) (hd : depth < d.length) :
    (∃ j depth', skipSwitch d wireType i depth = .ok (j, depth')
        ∧ (j < 0 ∨ i ≤ j) ∧ j < 9223372036854775808 ∧ 0 ≤ depth' ∧ depth' ≤ depth + 1)
      ∨ ∃ e, skipSwitch d wireType i depth = .error e ∧ Good e := by
  unfold skipSwitch
  by_cases h0 : wireType = 0
  · rw [if_pos h0]
    rcases skipVarint_safe hl 10 0 i (by omega) hi0 with ⟨j, hr, h1, h2⟩ | ⟨e, hr, he⟩
    · left
      rw [hr]
      exact ⟨j, depth, rfl, by omega, by omega, hd0, by omega⟩
    · right
      rw [hr]
      exact ⟨e, rfl, he⟩
  rw [if_neg h0]
  by_cases h1 : wireType = 1
  · rw [if_pos h1]
    left
    refine ⟨_, depth, rfl, ?_, wrapInt_lt _, hd0, by omega⟩
    rcases wrapInt_add_nonneg hi0 (by omega) (by omega : (0 : Int) ≤ 8) (by omega) with h | h
    · exact Or.inl h
    · exact Or.inr (by omega)
  rw [if_neg h1]
  by_cases h2 : wireType = 2
  · rw [if_pos h2]
    rcases readVarint_safe hl 10 0 0 i (by omega) hi0 with ⟨v, j, hr, hj1, hj2⟩ | ⟨e, hr, he⟩
    · rw [hr]
      simp only
      by_cases hneg : toInt v < 0
      · right
        rw [if_pos hneg]
        exact ⟨_, rfl, by decide, by decide⟩
      · left
        rw [if_neg hneg]
        refine ⟨_, depth, rfl, ?_, wrapInt_lt _, hd0, by omega⟩
        rcases wrapInt_add_nonneg (by omega : 0 ≤ j) (by omega) (by omega : 0 ≤ toInt v)
          (wrapInt_lt _) with h | h
        · exact Or.inl h
        · exact Or.inr (by omega)
    · right
      rw [hr]
      exact ⟨e, rfl, he⟩
  rw [if_neg h2]
  by_cases h3 : wireType = 3
  · rw [if_pos h3]
    left
    refine ⟨i, _, rfl, Or.inr le_rfl, by omega, ?_, ?_⟩
    · rw [wrapInt_eq (by omega) (by omega)]; omega
    · rw [wrapInt_eq (by omega) (by omega)]
  rw [if_neg h3]
  by_cases h4 : wireType = 4
  · rw [if_pos h4]
    by_cases hz : depth = 0
    · right
      rw [if_pos hz]
      exact ⟨_, rfl, by decide, by decide⟩
    · left
      rw [if_neg hz]
      refine ⟨i, _, rfl, Or.inr le_rfl, by omega, ?_, ?_⟩
      · rw [wrapInt_eq (by omega) (by omega)]; omega
      · rw [wrapInt_eq (by omega) (by omega)]; omega
  rw [if_neg h4]
  by_cases h5 : wireType = 5
  · rw [if_pos h5]
    left
    refine ⟨_, depth, rfl, ?_, wrapInt_lt _, hd0, by omega⟩
    rcases wrapInt_add_nonneg hi0 (by omega) (by omega : (0 : Int) ≤ 4) (by omega) with h | h
    · exact Or.inl h
    · exact Or.inr (by omega)
  rw [if_neg h5]
  right
  exact ⟨_, rfl, by simp [Good]⟩

theorem skipLoop_safe {d : Bytes} (hl : d.length < 2 ^ 63) (fuel : Nat) :
    ∀ (i depth : Int), 0 ≤ depth → depth ≤ i → (d.length : Int) - i < fuel → 1 ≤ fuel →
    (∃ n, skipLoop d fuel i depth = .ok n ∧ i < n ∧ n < 9223372036854775808)
      ∨ ∃ e, skipLoop d fuel i depth = .error e ∧ Good e := by
  induction fuel with
  | zero => intro i depth _ _ _ h; omega
  | succ fuel ih =>
    intro i depth hd0 hdi hf _
    rw [skipLoop]
    by_cases hil : i < d.length
    · rw [if_pos hil]
      rcases readVarint_safe hl 10 0 0 i (by omega) (by omega) with
        ⟨v, j, hr, hj1, hj2⟩ | ⟨e, hr, he⟩
      · rw [hr]
        simp only
        rcases skipSwitch_safe hl (toInt (v &&& 0x7)) j depth (by omega) hj2 hd0 (by omega) with
          ⟨j2, depth2, hs, hj, hjlt, hd2, hd2le⟩ | ⟨e, hs, he⟩
        · rw [hs]
          simp only
          by_cases hneg : j2 < 0
          · right
            rw [if_pos hneg]
            exact ⟨_, rfl, by decide, by decide⟩
          · rw [if_neg hneg]
            have hjj : j ≤ j2 := by omega
            by_cases hz : depth2 = 0
            · left
              rw [if_pos hz]
              exact ⟨j2, rfl, by omega, hjlt⟩
            · rw [if_neg hz]
              rcases ih j2 depth2 hd2 (by omega) (by omega) (by omega) with
                ⟨n, hn, hn1, hn2⟩ | ⟨e, hn, he⟩
              · left
                exact ⟨n, hn, by omega, hn2⟩
              · right
                exact ⟨e, hn, he⟩
        · right
          rw [hs]
          exact ⟨e, rfl, he⟩
      · right
        rw [hr]
        exact ⟨e, rfl, he⟩
    · right
      rw [if_neg hil]
      exact ⟨_, rfl, by decide, by decide⟩

theorem skipTarsum_safe {d : Bytes} (hl : d.length < 2 ^ 63) :
    (∃ n, skipTarsum d = .ok n ∧ 0 < n ∧ n < 9223372036854775808)
      ∨ ∃ e, skipTarsum d = .error e ∧ Good e := by
  unfold skipTarsum
  exact skipLoop_safe hl (d.length + 1) 0 0 le_rfl le_rfl (by push_cast; omega) (by omega)

theorem skipField_safe {d : Bytes} (hl : d.length < 2 ^ 63) (i limit : Int)
    (hi0 : 0 ≤ i) (hi : i ≤ d.length) :
    (∃ j, skipField d i limit = .ok j ∧ i < j ∧ j ≤ limit)
      ∨ ∃ e, skipField d i limit = .error e ∧ Good e := by
  unfold skipField
  obtain ⟨rest, hs, hrl⟩ := slice_ok hi0 hi (le_refl (d.length : Int))
  rw [hs]
  simp only
  rcases skipTarsum_safe (d := rest) (by omega) with ⟨n, hn, hn0, hn1⟩ | ⟨e, hn, he⟩
  · rw [hn]
    simp only
    by_cases hneg : n < 0 ∨ wrapInt (i + n) < 0
    · right
      rw [if_pos hneg]
      exact ⟨_, rfl, by decide, by decide⟩
    · rw [if_neg hneg]
      have hw : wrapInt (i + n) = i + n := by
        rcases wrapInt_add_nonneg hi0 (by omega) (by omega : 0 ≤ n) hn1 with h | h
        · exact absurd (Or.inr h) hneg
        · exact h
      by_cases hlim : wrapInt (i + n) > limit
      · right
        rw [if_pos hlim]
        exact ⟨_, rfl, by decide, by decide⟩
      · left
        rw [if_neg hlim]
        exact ⟨_, rfl, by omega, by omega⟩
  · right
    rw [hn]
    exact ⟨e, rfl, he⟩

theorem readString_safe {d : Bytes} (hl : d.length < 2 ^ 63) (i : Int) (hi0 : 0 ≤ i) :
    (∃ t j, readString d i = .ok (t, j) ∧ i < j ∧ j ≤ d.length)
      ∨ ∃ e, readString d i = .error e ∧ Good e := by
  unfold readString
  rcases readVarint_safe hl 10 0 0 i (by omega) hi0 with ⟨v, j, hr, hj1, hj2⟩ | ⟨e, hr, he⟩
  · rw [hr]
    simp only
    by_cases hneg : toInt v < 0
    · right
      rw [if_pos hneg]
      exact ⟨_, rfl, by decide, by decide⟩
    · rw [if_neg hneg]
      by_cases hneg2 : wrapInt (j + toInt v) < 0
      · right
        rw [if_pos hneg2]
        exact ⟨_, rfl, by decide, by decide⟩
      · rw [if_neg hneg2]
        have hw : wrapInt (j + toInt v) = j + toInt v := by
          rcases wrapInt_add_nonneg (by omega : 0 ≤ j) (by omega) (by omega : 0 ≤ toInt v)
            (wrapInt_lt _) with h | h
          · exact absurd h hneg2
          · exact h
        by_cases hlim : wrapInt (j + toInt v) > d.length
        · right
          rw [if_pos hlim]
          exact ⟨_, rfl, by decide, by decide⟩
        · rw [if_neg hlim]
          obtain ⟨x, hx, _⟩ := slice_ok (d := d) (a := j) (b := wrapInt (j + toInt v))
            (by omega) (by omega) (by omega)
          left
          rw [hx]
          exact ⟨_, _, rfl, by omega, by omega⟩
  · right
    rw [hr]
    exact ⟨e, rfl, he⟩

theorem entryLoop_safe {d : Bytes} (hl : d.length < 2 ^ 63) (postIndex : Int)
    (hp : postIndex ≤ d.length) (fuel : Nat) :
    ∀ (mk mv : Bytes) (i : Int), 0 ≤ i → i ≤ d.length → (d.length : Int) - i < fuel →
    (∃ k v, entryLoop d postIndex fuel mk mv i = .ok (k, v))
      ∨ ∃ e, entryLoop d postIndex fuel mk mv i = .error e ∧ Good e := by
  induction fuel with
  | zero => intro mk mv i _ _ h; omega
  | succ fuel ih =>
    intro mk mv i hi0 hi hf
    rw [entryLoop]
    by_cases hip : i < postIndex
    · rw [if_pos hip]
      rcases readVarint_safe hl 10 0 0 i (by omega) hi0 with ⟨w, j, hr, hj1, hj2⟩ | ⟨e, hr, he⟩
      · rw [hr]
        dsimp only
        by_cases hf1 : toInt32 (w >>> 3) = 1
        · rw [if_pos hf1]
          rcases readString_safe hl j (by omega) with ⟨t, j2, hs, h1, h2⟩ | ⟨e, hs, he⟩
          · rw [hs]
            exact ih t mv j2 (by omega) h2 (by omega)
          · right
            rw [hs]
            exact ⟨e, rfl, he⟩
        · rw [if_neg hf1]
          by_cases hf2 : toInt32 (w >>> 3) = 2
          · rw [if_pos hf2]
            rcases readString_safe hl j (by omega) with ⟨t, j2, hs, h1, h2⟩ | ⟨e, hs, he⟩
            · rw [hs]
              exact ih mk t j2 (by omega) h2 (by omega)
            · right
              rw [hs]
              exact ⟨e, rfl, he⟩
          · rw [if_neg hf2]
            rcases skipField_safe hl i postIndex hi0 hi with ⟨j2, hs, h1, h2⟩ | ⟨e, hs, he⟩
            · rw [hs]
              exact ih mk mv j2 (by omega) (by omega) (by omega)
            · right
              rw [hs]
              exact ⟨e, rfl, he⟩
      · right
        rw [hr]
        exact ⟨e, rfl, he⟩
    · left
      rw [if_neg hip]
      exact ⟨mk, mv, rfl⟩

theorem unmarshalHashes_safe {d : Bytes} (hl : d.length < 2 ^ 63) (H : Option GoMap)
    (wireType i : Int) (hi0 : 0 ≤ i) :
    (∃ h j, unmarshalHashes d H wireType i = (h, .ok j) ∧ i < j ∧ j ≤ d.length)
      ∨ ∃ h e, unmarshalHashes d H wireType i = (h, .error e) ∧ Good e := by
  unfold unmarshalHashes
  by_cases hw : wireType ≠ 2
  · right
    rw [if_pos hw]
    exact ⟨_, _, rfl, by simp [Good]⟩
  rw [if_neg hw]
  rcases readVarint_safe hl 10 0 0 i (by omega) hi0 with ⟨v, j, hr, hj1, hj2⟩ | ⟨e, hr, he⟩
  · rw [hr]
    dsimp only
    by_cases hneg : toInt v < 0
    · right
      rw [if_pos hneg]
      exact ⟨_, _, rfl, by decide, by decide⟩
    rw [if_neg hneg]
    by_cases hneg2 : wrapInt (j + toInt v) < 0
    · right
      rw [if_pos hneg2]
      exact ⟨_, _, rfl, by decide, by decide⟩
    rw [if_neg hneg2]
    have hw2 : wrapInt (j + toInt v) = j + toInt v := by
      rcases wrapInt_add_nonneg (by omega : 0 ≤ j) (by omega) (by omega : 0 ≤ toInt v)
        (wrapInt_lt _) with h | h
      · exact absurd h hneg2
      · exact h
    by_cases hlim : wrapInt (j + toInt v) > d.length
    · right
      rw [if_pos hlim]
      exact ⟨_, _, rfl, by decide, by decide⟩
    rw [if_neg hlim]
    rcases entryLoop_safe hl (wrapInt (j + toInt v)) (by omega) (d.length + 1) [] [] j
      (by omega) hj2 (by push_cast; omega) with ⟨k, x, hs⟩ | ⟨e, hs, he⟩
    · left
      rw [hs]
      exact ⟨_, _, rfl, by omega, by omega⟩
    · right
      rw [hs]
      exact ⟨_, e, rfl, he⟩
  · right
    rw [hr]
    exact ⟨_, e, rfl, he⟩

theorem unmarshalField_safe {d : Bytes} (hl : d.length < 2 ^ 63) (H : Option GoMap)
    (i : Int) (hi0 : 0 ≤ i) (hi : i ≤ d.length) :
    (∃ h j, unmarshalField d H i = (h, .ok j) ∧ i < j ∧ j ≤ d.length)
      ∨ ∃ h e, unmarshalField d H i = (h, .error e) ∧ Good e := by
  unfold unmarshalField
  dsimp only
  rcases readVarint_safe hl 10 0 0 i (by omega) hi0 with ⟨w, j, hr, hj1, hj2⟩ | ⟨e, hr, he⟩
  · rw [hr]
    dsimp only
    by_cases h4 : toInt (w &&& 0x7) = 4
    · right
      rw [if_pos h4]
      exact ⟨_, _, rfl, by decide, by decide⟩
    rw [if_neg h4]
    by_cases hf0 : toInt32 (w >>> 3) ≤ 0
    · right
      rw [if_pos hf0]
      exact ⟨_, _, rfl, by simp [Good]⟩
    rw [if_neg hf0]
    by_cases hf1 : toInt32 (w >>> 3) = 1
    · rw [if_pos hf1]
      rcases unmarshalHashes_safe hl H (toInt (w &&& 0x7)) j (by omega) with
        ⟨h, j2, hs, h1, h2⟩ | ⟨h, e, hs, he⟩
      · left
        exact ⟨h, j2, hs, by omega, h2⟩
      · right
        exact ⟨h, e, hs, he⟩
    · rw [if_neg hf1]
      rcases skipField_safe hl i d.length hi0 hi with ⟨j2, hs, h1, h2⟩ | ⟨e, hs, he⟩
      · left
        rw [hs]
        exact ⟨_, _, rfl, h1, h2⟩
      · right
        rw [hs]
        exact ⟨_, e, rfl, he⟩
  · right
    rw [hr]
    exact ⟨_, e, rfl, he⟩

theorem unmarshalLoop_safe {d : Bytes} (hl : d.length < 2 ^ 63) (fuel : Nat) :
    ∀ (H : Option GoMap) (i : Int), 0 ≤ i → i ≤ d.length → (d.length : Int) - i < fuel →
    (unmarshalLoop d fuel H i).2 = .ok ()
      ∨ ∃ e, (unmarshalLoop d fuel H i).2 = .error e ∧ Good e := by
  induction fuel with
  | zero => intro H i _ _ h; omega
  | succ fuel ih =>
    intro H i hi0 hi hf
    rw [unmarshalLoop]
    by_cases hil : i < d.length
    · rw [if_pos hil]
      rcases unmarshalField_safe hl H i hi0 hi with ⟨h, j, hs, h1, h2⟩ | ⟨h, e, hs, he⟩
      · rw [hs]
        exact ih h j (by omega) h2 (by omega)
      · right
        rw [hs]
        exact ⟨e, rfl, he⟩
    · left
      rw [if_neg hil, if_neg (by omega)]

/-- C11. `Unmarshal` is total and index-safe on untrusted input: for every byte
slice (its length a Go `int`) and every receiver, `Unmarshal` stops and returns
nil or an error value; it never stops with an index or slice expression out of
bounds and never uses up the fuel of a loop, `int` arithmetic being 64-bit
wrap-around. The same holds for `skipTarsum` on every byte slice. -/
theorem unmarshal_total_and_index_safe (m : TarsumBackup) (d : Bytes)
    (hl : d.length < 2 ^ 63) :
    ((Unmarshal m d).2 = .ok ()
        ∨ ∃ e, (Unmarshal m d).2 = .error e ∧ e ≠ .panicIndex ∧ e ≠ .outOfFuel)
      ∧ ((∃ n, skipTarsum d = .ok n)
        ∨ ∃ e, skipTarsum d = .error e ∧ e ≠ .panicIndex ∧ e ≠ .outOfFuel) := by
  constructor
  · unfold Unmarshal
    exact unmarshalLoop_safe hl (d.length + 1) m.Hashes 0 le_rfl (by omega)
      (by push_cast; omega)
  · rcases skipTarsum_safe hl with ⟨n, hn, _, _⟩ | ⟨e, hn, he⟩
    · exact Or.inl ⟨n, hn⟩
    · exact Or.inr ⟨e, hn, he⟩

theorem unmarshal_total_and_index_safe_witness :
    ((Unmarshal ⟨none⟩ [10, 3, 18, 200, 1, 25, 1]).2 = .ok ()
        ∨ ∃ e, (Unmarshal ⟨none⟩ [10, 3, 18, 200, 1, 25, 1]).2 = .error e
          ∧ e ≠ .panicIndex ∧ e ≠ .outOfFuel)
      ∧ ((∃ n, skipTarsum [10, 3, 18, 200, 1, 25, 1] = .ok n)
        ∨ ∃ e, skipTarsum [10, 3, 18, 200, 1, 25, 1] = .error e
          ∧ e ≠ .panicIndex ∧ e ≠ .outOfFuel) :=
  unmarshal_total_and_index_safe ⟨none⟩ [10, 3, 18, 200, 1, 25, 1] (by decide)

end Tarsum

/-! # Theorems about the attach stream -/

namespace Attach

theorem getUint32_putUint32 {n : Nat} (h : n < 4294967296) :
    getUint32 (n / 16777216 % 256) (n / 65536 % 256) (n / 256 % 256) (n % 256) = n := by
  unfold getUint32
  omega

/-- C8. Frame codec round trip: for every payload whose length fits an unsigned
32-bit field, decoding the bytes of one encoded stdout frame delivers exactly
the payload to the stdout sink, nothing to the other sinks, and reports no
error. -/
theorem frame_round_trip (X : Bytes) (h : X.length < 4294967296) :
    ∃ n, decodeStream (encodeFrame .stdout X) = (⟨[], X, []⟩, .ok n) := by
  refine ⟨X.length, ?_⟩
  unfold decodeStream encodeFrame putUint32
  simp only [List.cons_append, List.nil_append, List.length_cons, StreamKind.toByte]
  rw [decodeLoop]
  simp only [kindOfByte, getUint32_putUint32 h]
  simp [Sinks.deliver, decodeLoop]

theorem frame_round_trip_witness :
    ∃ n, decodeStream (encodeFrame .stdout [104, 101, 108, 108, 111])
      = (⟨[], [104, 101, 108, 108, 111], []⟩, .ok n) :=
  frame_round_trip [104, 101, 108, 108, 111] (by decide)

/-- C7. The stream mode is discoverable from the attach response: every attach
response reports a media type, the raw-stream one for a container created with
`Tty = true` and the multiplexed-stream one for `Tty = false`, whatever the
attach options; both attach tests pass. -/
theorem attach_media_type (config : Config) (options : ContainerAttachOptions) :
    ContainerAttachMediaType config options
        = some (if config.Tty = true then MediaType.MediaTypeRawStream
            else MediaType.MediaTypeMultiplexedStream)
      ∧ testAttach true .MediaTypeRawStream = true
      ∧ testAttach false .MediaTypeMultiplexedStream = true := by
  refine ⟨?_, by decide, by decide⟩
  unfold ContainerAttachMediaType
  cases config.Tty <;> rfl

end Attach
